import Mathlib

/-!
Shallow embedding of src/src/js/modules/Env.js (trovu): namespace
resolution, shortcut fetching and verification, include resolution and
reachability annotation, with proofs of the specification claims.

Modelling conventions.  JavaScript objects whose keys are data
(shortcut maps, the namespace-info map) are association lists in
insertion order; a JS property that may be absent is an Option field;
JS string truthiness (the empty string is falsy) is jsTruthyS.  The
fetch collaborator and the YAML parser are oracle parameters; a
rejected fetch promise is an Except.error, which propagates exactly as
the JS exception does through an awaited Promise.all.
-/

/-- JS property choice as performed by Object.assign: the source's field
when the source has it, otherwise the target's. -/
def pick {α : Type} : Option α → Option α → Option α
  | some x, _ => some x
  | none, b => b

/-- JS truthiness of a possibly absent string: absent and empty are falsy. -/
def jsTruthyS : Option String → Bool
  | none => false
  | some s => !(s == "")

/-- Property read on a JS object modelled as an association list. -/
def assocFind {α : Type} (l : List (String × α)) (k : String) : Option α :=
  (l.find? (fun p => p.1 == k)).map Prod.snd

/-- Property write on an existing key of a JS object: only entries whose key
equals k are replaced, positions and the other entries are untouched. -/
def assocUpdate {α : Type} (l : List (String × α)) (k : String) (v : α) :
    List (String × α) :=
  l.map (fun p => if p.1 == k then (k, v) else p)

/-- JS object property assignment m[k] = v: replace in place when the key
exists, append otherwise. -/
def jsObjectSet {α : Type} (m : List (String × α)) (k : String) (v : α) :
    List (String × α) :=
  if m.any (fun p => p.1 == k) then assocUpdate m k v else m ++ [(k, v)]

/-- Object.fromEntries: build an object by assigning each pair in order. -/
def jsFromEntries {α : Type} (l : List (String × α)) : List (String × α) :=
  l.foldl (fun m p => jsObjectSet m p.1 p.2) []

/-- Object.assign(target, source) on whole objects-as-maps: assign every
property of the source onto the target in order. -/
def objAssignMap {α : Type} (target source : List (String × α)) :
    List (String × α) :=
  source.foldl (fun m p => jsObjectSet m p.1 p.2) target

/-- The include directive of a shortcut (Env.js uses fields key and
namespace; the latter is a Lean keyword, modelled as nsp). -/
structure IncludeRef where
  key : Option String := none
  nsp : Option String := none
deriving DecidableEq, Repr

/-- One shortcut entry.  Authored fields: url, title, inc (the source's
field include, a Lean keyword, modelled as inc), tags.  Derived fields
written by addInfoToShortcut and addReachable: key, keyword,
argumentCount, nsName (the source's field namespace), args (the source's
field arguments), reachable. -/
structure Shortcut where
  url : Option String := none
  title : Option String := none
  inc : Option IncludeRef := none
  tags : Option (List String) := none
  key : Option String := none
  keyword : Option String := none
  argumentCount : Option String := none
  nsName : Option String := none
  args : Option (List String) := none
  reachable : Option Bool := none
deriving DecidableEq, Repr

/-- A raw, just-parsed shortcut value: either a bare URL string or an
object. -/
inductive RawVal where
  | str (s : String)
  | obj (sc : Shortcut)
deriving DecidableEq, Repr

/-- One namespace descriptor as built by getInitalNamespaceInfo and
enriched by the pipeline. -/
structure NamespaceInfo where
  name : String := ""
  type : Option String := none
  url : Option String := none
  github : Option String := none
  priority : Option Int := none
  shortcuts : List (String × Shortcut) := []
deriving DecidableEq, Repr

/-- A caller-supplied namespace spec: a bare string, or an object with
optional url, name and github fields. -/
inductive NamespaceSpec where
  | str (s : String)
  | obj (url : Option String) (name : Option String) (github : Option String)
deriving DecidableEq, Repr

/-- An HTTP response as seen by fetchShortcuts: status and body text. -/
structure Response where
  status : Nat
  body : String
deriving DecidableEq, Repr

/-- The fetch collaborator: a transport failure is an error (a rejected
promise), anything else is a response. -/
def FetchOracle : Type := String → Except String Response

/-- The jsyaml collaborator: none models a parse exception. -/
def ParseOracle : Type := String → Option (List (String × RawVal))

/-- The namespace-info map namespaceInfos, keyed by namespace name. -/
abbrev Infos : Type := List (String × NamespaceInfo)

/-- JS regex class \S (non-whitespace), restricted to the whitespace
characters relevant here. -/
def jsNonWs (c : Char) : Bool :=
  !(c == ' ' || c == '\t' || c == '\n' || c == '\r' || c == '\x0b' || c == '\x0c')

/-- Whether the character list contains three consecutive characters
non-whitespace, space, digit.  The unanchored JS regex \S+ \d matches a
string iff such a triple occurs: the last \S character of a match gives
the triple, and conversely a triple is a match. -/
def hasKeyPatternAux : List Char → Bool
  | a :: b :: c :: rest =>
      (jsNonWs a && b == ' ' && c.isDigit) || hasKeyPatternAux (b :: c :: rest)
  | _ => false

/-- key.match(/\S+ \d/) of Env.js verifyShortcuts, as a Bool. -/
def hasKeyPattern (s : String) : Bool :=
  hasKeyPatternAux s.data

/-- The bare-string-to-object normalization performed inside
verifyShortcuts: a string shortcut becomes an object with only url. -/
def normalizeShortcutVal : RawVal → Shortcut
  | .str u => { url := some u }
  | .obj sc => sc

/-- Env.js verifyShortcuts (lines 413-439): walk the entries, collect the
keys that do not match the pattern into incorrectKeys (reported once per
namespace, second component), normalize bare strings, and return all
entries.  The namespaceName only labels the aggregated diagnostic. -/
def verifyShortcuts : List (String × RawVal) → String →
    List (String × Shortcut) × List String
  | [], _ => ([], [])
  | (key, v) :: rest, namespaceName =>
    let r := verifyShortcuts rest namespaceName
    ((key, normalizeShortcutVal v) :: r.1,
     (if !hasKeyPattern key then [key] else []) ++ r.2)

/-- Env.js parseShortcutsFromYml (lines 318-327): on a parse exception
return the empty set and set this.error (second component). -/
def parseShortcutsFromYml (po : ParseOracle) (text : String) :
    List (String × RawVal) × Bool :=
  match po text with
  | some v => (v, false)
  | none => ([], true)

/-- Env.js addFetchUrlToSiteNamespace (lines 372-379). -/
def addFetchUrlToSiteNamespace (name : String) : NamespaceInfo :=
  { name := name
    type := some "site"
    url := some ("https://data.trovu.net/data/shortcuts/" ++ name ++ ".yml") }

/-- Env.js addFetchUrlToGithubNamespace (lines 388-403): replace the
self-reference marker by this.github, default the name to the github
account, template the fetch URL, tag as user.  A JS undefined used as an
object key or in string concatenation coerces to the text undefined. -/
def addFetchUrlToGithubNamespace (selfGithub : Option String)
    (nameField githubField : Option String) : NamespaceInfo :=
  let g := if githubField == some "." then selfGithub else githubField
  let nm := if jsTruthyS nameField then nameField else g
  { name := nm.getD "undefined"
    type := some "user"
    url := some ("https://raw.githubusercontent.com/" ++ g.getD "undefined" ++
      "/trovu-data-user/master/shortcuts.yml")
    github := g }

/-- Env.js getInitalNamespaceInfo (lines 344-363): short strings are site
namespaces; objects with truthy url and name are user namespaces kept
as-is; everything else goes through the Github path (a remaining string
becomes an object with only github set). -/
def getInitalNamespaceInfo (selfGithub : Option String) :
    NamespaceSpec → NamespaceInfo
  | .str s =>
    if s.length < 4 then addFetchUrlToSiteNamespace s
    else addFetchUrlToGithubNamespace selfGithub none (some s)
  | .obj u n g =>
    if jsTruthyS u && jsTruthyS n then
      { name := n.getD "", type := some "user", url := u, github := g }
    else addFetchUrlToGithubNamespace selfGithub n g

/-- Env.js getInitialNamespaceInfos (lines 108-116): 1-based priorities in
list order, keyed by name via Object.fromEntries. -/
def getInitialNamespaceInfos (selfGithub : Option String)
    (namespaces : List NamespaceSpec) : Infos :=
  jsFromEntries (namespaces.enum.map (fun p =>
    let ni := getInitalNamespaceInfo selfGithub p.2
    (ni.name, { ni with priority := some ((p.1 : Int) + 1) })))

/-- Env.js startFetches (lines 261-273): one promise per namespace with a
truthy url, stored at the index given by its priority; namespaces
without a url get no slot. -/
def startFetches (fo : FetchOracle) (namespaceInfos : Infos) :
    List (Option Int × Except String Response) :=
  (namespaceInfos.map Prod.snd).filterMap (fun ni =>
    if jsTruthyS ni.url then some (ni.priority, fo (ni.url.getD "")) else none)

/-- await Promise.all: if any promise rejected the await throws (the
first rejection in slot order), otherwise all responses are available. -/
def awaitAll : List (Option Int × Except String Response) →
    Except String (List (Option Int × Response))
  | [] => .ok []
  | (_, .error e) :: _ => .error e
  | (p, .ok r) :: rest => (awaitAll rest).map (fun l => (p, r) :: l)

/-- responses[namespaceInfo.priority]: the response stored under a
priority slot, if any. -/
def findResponse (responses : List (Option Int × Response)) (prio : Option Int) :
    Option Response :=
  (responses.find? (fun q => q.1 == prio)).map Prod.snd

/-- The per-namespace loop of Env.js fetchShortcuts (lines 291-314): a
missing slot or a non-200 status degrades the namespace to an empty
shortcut set; otherwise the body is parsed and verified.  The Bool
accumulates this.error contributions (parse failure, incorrect keys). -/
def processResponses (po : ParseOracle)
    (responses : List (Option Int × Response)) : Infos → Infos × Bool
  | [] => ([], false)
  | (n, ni) :: rest =>
    let r := processResponses po responses rest
    match findResponse responses ni.priority with
    | none => ((n, { ni with shortcuts := [] }) :: r.1, r.2)
    | some resp =>
      if resp.status != 200 then ((n, { ni with shortcuts := [] }) :: r.1, r.2)
      else
        let parsed := parseShortcutsFromYml po resp.body
        let verified := verifyShortcuts parsed.1 ni.name
        ((n, { ni with shortcuts := verified.1 }) :: r.1,
         (parsed.2 || !verified.2.isEmpty) || r.2)

/-- Env.js fetchShortcuts (lines 284-316): build the descriptors, start
all fetches, await them jointly (a transport failure rejects the whole
await), then process each response. -/
def fetchShortcuts (fo : FetchOracle) (po : ParseOracle)
    (selfGithub : Option String) (namespaces : List NamespaceSpec) :
    Except String (Infos × Bool) :=
  let namespaceInfos := getInitialNamespaceInfos selfGithub namespaces
  match awaitAll (startFetches fo namespaceInfos) with
  | .error e => .error e
  | .ok responses => .ok (processResponses po responses namespaceInfos)

/-- Object.assign(target, source) on two shortcut entries: every field the
source has overwrites the target's. -/
def assign (target source : Shortcut) : Shortcut :=
  { url := pick source.url target.url
    title := pick source.title target.title
    inc := pick source.inc target.inc
    tags := pick source.tags target.tags
    key := pick source.key target.key
    keyword := pick source.keyword target.keyword
    argumentCount := pick source.argumentCount target.argumentCount
    nsName := pick source.nsName target.nsName
    args := pick source.args target.args
    reachable := pick source.reachable target.reachable }

/-- Object.assign with a possibly undefined source (a no-op then). -/
def assignOpt (target : Shortcut) : Option Shortcut → Shortcut
  | some source => assign target source
  | none => target

/-- Env.js getShortcutFromNamespace (lines 468-479): fetch the namespace
on demand when absent (priority 1, as the sole element of the list),
merge it into the shared map, then look the key up there.  Reading a
property of a still-missing namespace would be a JS TypeError. -/
def getShortcutFromNamespace (fo : FetchOracle) (po : ParseOracle)
    (selfGithub : Option String) (key namespaceName : String)
    (namespaceInfos : Infos) :
    Except String (Option Shortcut × Infos × Bool) :=
  match assocFind namespaceInfos namespaceName with
  | some ni => .ok (assocFind ni.shortcuts key, namespaceInfos, false)
  | none =>
    match fetchShortcuts fo po selfGithub [.str namespaceName] with
    | .error e => .error e
    | .ok (newInfos, err) =>
      let infos' := objAssignMap namespaceInfos newInfos
      match assocFind infos' namespaceName with
      | some ni => .ok (assocFind ni.shortcuts key, infos', err)
      | none => .error "TypeError"

/-- One iteration of the Env.js addIncludes loop (lines 442-464) at a
given key, over the state (shortcuts, namespaceInfos, this.error): an
include with a truthy key merges the referenced entry (from the same
shortcut map, or from the named namespace fetched on demand) onto the
entry in place; an include without a key sets this.error and continues. -/
def addIncludesStep (fo : FetchOracle) (po : ParseOracle)
    (selfGithub : Option String) (st : List (String × Shortcut) × Infos × Bool)
    (key : String) : Except String (List (String × Shortcut) × Infos × Bool) :=
  match assocFind st.1 key with
  | none => .ok st
  | some shortcut =>
    match shortcut.inc with
    | none => .ok st
    | some incl =>
      if jsTruthyS incl.key then
        if jsTruthyS incl.nsp then
          match getShortcutFromNamespace fo po selfGithub (incl.key.getD "")
              (incl.nsp.getD "") st.2.1 with
          | .error e => .error e
          | .ok (shortcutToInclude, infos', err') =>
            .ok (assocUpdate st.1 key (assignOpt shortcut shortcutToInclude),
              infos', st.2.2 || err')
        else
          .ok (assocUpdate st.1 key
              (assignOpt shortcut (assocFind st.1 (incl.key.getD ""))),
            st.2.1, st.2.2)
      else
        .ok (st.1, st.2.1, true)

/-- The for-in loop of addIncludes: the key list is the snapshot of the
object's keys; the state evolves through the steps. -/
def addIncludesGo (fo : FetchOracle) (po : ParseOracle)
    (selfGithub : Option String) :
    List String → List (String × Shortcut) × Infos × Bool →
    Except String (List (String × Shortcut) × Infos × Bool)
  | [], st => .ok st
  | k :: rest, st =>
    match addIncludesStep fo po selfGithub st k with
    | .error e => .error e
    | .ok st' => addIncludesGo fo po selfGithub rest st'

/-- Env.js addIncludes (lines 441-466). -/
def addIncludes (fo : FetchOracle) (po : ParseOracle)
    (selfGithub : Option String) (shortcuts : List (String × Shortcut))
    (namespaceInfos : Infos) :
    Except String (List (String × Shortcut) × Infos × Bool) :=
  addIncludesGo fo po selfGithub (shortcuts.map Prod.fst)
    (shortcuts, namespaceInfos, false)

/-- Env.js isSubscribed (lines 544-546): a truthy, positive priority. -/
def isSubscribed (namespaceInfo : NamespaceInfo) : Bool :=
  match namespaceInfo.priority with
  | none => false
  | some v => decide (0 < v)

/-- The priority value used by the addReachable sort comparator
(b.priority - a.priority); an absent priority never arises there in the
pipeline and is given the neutral value 0. -/
def priVal (ni : NamespaceInfo) : Int :=
  ni.priority.getD 0

/-- The descending-priority order of the addReachable sort. -/
def prioGe (a b : NamespaceInfo) : Prop :=
  priVal b ≤ priVal a

instance : DecidableRel prioGe :=
  fun a b => inferInstanceAs (Decidable (priVal b ≤ priVal a))

instance : IsTotal NamespaceInfo prioGe :=
  ⟨fun a b => (le_total (priVal b) (priVal a)).imp id id⟩

instance : IsTrans NamespaceInfo prioGe :=
  ⟨fun _ _ _ hab hbc => le_trans hbc hab⟩

/-- Env.js addInfoToShortcut (lines 528-535): derive key, keyword and
argumentCount (split on the first space), owning namespace, the
argument metadata of the url (via the UrlProcessor collaborator,
passed as getArgs), and default the title. -/
def addInfoToShortcut (getArgs : Option String → List String)
    (shortcut : Shortcut) (key : String) (namespaceInfo : NamespaceInfo) :
    Shortcut :=
  { shortcut with
    key := some key
    keyword := some ((key.splitOn " ").headD "")
    argumentCount := (key.splitOn " ")[1]?
    nsName := some namespaceInfo.name
    args := some (getArgs shortcut.url)
    title := some (if jsTruthyS shortcut.title then shortcut.title.getD "" else "") }

/-- The inner key loop of Env.js addReachable (lines 505-523): enrich each
entry, mark it reachable iff its key was not seen yet, and record the
key as found. -/
def markEntries (getArgs : Option String → List String)
    (namespaceInfo : NamespaceInfo) :
    List (String × Shortcut) → List String →
    List (String × Shortcut) × List String
  | [], found => ([], found)
  | (key, s) :: rest, found =>
    let s1 := addInfoToShortcut getArgs s key namespaceInfo
    let s2 := { s1 with reachable := some (!found.contains key) }
    let r := markEntries getArgs namespaceInfo rest (key :: found)
    ((key, s2) :: r.1, r.2)

/-- The namespace loop of Env.js addReachable (lines 499-524): walk the
namespaces in the given (descending-priority) order, skipping the
unsubscribed ones entirely, threading the found-keys set. -/
def annotateList (getArgs : Option String → List String) (found : List String) :
    List NamespaceInfo → List NamespaceInfo × List String
  | [] => ([], found)
  | ni :: rest =>
    if isSubscribed ni then
      let m := markEntries getArgs ni ni.shortcuts found
      let r := annotateList getArgs m.2 rest
      ({ ni with shortcuts := m.1 } :: r.1, r.2)
    else
      let r := annotateList getArgs found rest
      (ni :: r.1, r.2)

/-- Env.js addReachable (lines 486-526) on the values of the namespace
map: sort by descending priority (a stable sort, as JS mandates), then
annotate. -/
def addReachable (getArgs : Option String → List String)
    (namespaceInfos : List NamespaceInfo) : List NamespaceInfo :=
  (annotateList getArgs [] (List.insertionSort prioGe namespaceInfos)).1

/-- addReachable acting on the name-keyed map: the in-place mutation of
the shared objects is modelled by looking each value's annotated version
up by name (names are the map's keys). -/
def addReachableMap (getArgs : Option String → List String) (m : Infos) :
    Infos :=
  let annotated := addReachable getArgs (m.map Prod.snd)
  m.map (fun p =>
    (p.1, ((annotated.find? (fun ni => ni.name == p.2.name)).getD p.2)))

/-- The include-resolution loop of Env.js getNamespaceInfos (lines
98-103), modelled sequentially over the snapshot of namespace names:
each namespace's shortcuts are rewritten by addIncludes against the
shared, evolving map. -/
def addIncludesAll (fo : FetchOracle) (po : ParseOracle)
    (selfGithub : Option String) :
    List String → Infos × Bool → Except String (Infos × Bool)
  | [], st => .ok st
  | n :: rest, st =>
    match assocFind st.1 n with
    | none => addIncludesAll fo po selfGithub rest st
    | some ni =>
      match addIncludes fo po selfGithub ni.shortcuts st.1 with
      | .error e => .error e
      | .ok (sc', infos', err') =>
        addIncludesAll fo po selfGithub rest
          (jsObjectSet infos' n { ni with shortcuts := sc' }, st.2 || err')

/-- Env.js getNamespaceInfos (lines 96-106): fetch, resolve includes,
annotate reachability.  This is the whole namespace-resolution result
that populate stores; there is no failure value other than a propagated
exception. -/
def getNamespaceInfos (fo : FetchOracle) (po : ParseOracle)
    (getArgs : Option String → List String) (selfGithub : Option String)
    (namespaces : List NamespaceSpec) : Except String (Infos × Bool) :=
  match fetchShortcuts fo po selfGithub namespaces with
  | .error e => .error e
  | .ok (infos, err) =>
    match addIncludesAll fo po selfGithub (infos.map Prod.fst) (infos, err) with
    | .error e => .error e
    | .ok (infos1, err1) => .ok (addReachableMap getArgs infos1, err1)

/-- The shortcut set a namespace ends up with, as a function of the
response stored under its priority slot: used to state that each
namespace's outcome depends only on its own response. -/
def shortcutsOfResponse (po : ParseOracle) (resp : Option Response)
    (nsName : String) : List (String × Shortcut) :=
  match resp with
  | none => []
  | some r =>
    if r.status != 200 then []
    else (verifyShortcuts (parseShortcutsFromYml po r.body).1 nsName).1

/-- The this.error contribution of one namespace's response handling. -/
def errOfResponse (po : ParseOracle) (resp : Option Response) : Bool :=
  match resp with
  | none => false
  | some r =>
    if r.status != 200 then false
    else
      (parseShortcutsFromYml po r.body).2 ||
        !(verifyShortcuts (parseShortcutsFromYml po r.body).1 "").2.isEmpty

/-- The response a descriptor is attributed when no transport failure
occurred: the one fetched from its own url, absent when it has no url. -/
def ownResponse (fo : FetchOracle) (url : Option String) : Option Response :=
  if jsTruthyS url then (fo (url.getD "")).toOption else none

/-- The shortcut set a descriptor resolves to from its own url alone. -/
def expectedShortcuts (fo : FetchOracle) (po : ParseOracle)
    (url : Option String) (nsName : String) : List (String × Shortcut) :=
  shortcutsOfResponse po (ownResponse fo url) nsName

/-- The classification of namespace specs as the (amended) specification
states it: written from the spec's words, to be compared with
getInitalNamespaceInfo.  First-match precedence: strings shorter than 4
characters are site collections with the identifier templated into the
fixed site base URL; specs carrying both a truthy url and name are user
collections taken as-is; everything else is a Github user collection,
with the marker "." replaced by the caller's account and the name
defaulting to the account. -/
def classifyNamespaceSpec (selfGithub : Option String) :
    NamespaceSpec → NamespaceInfo
  | .str s =>
    if s.length < 4 then
      { name := s, type := some "site",
        url := some ("https://data.trovu.net/data/shortcuts/" ++ s ++ ".yml") }
    else
      { name := s, type := some "user",
        url := some ("https://raw.githubusercontent.com/" ++ s ++
          "/trovu-data-user/master/shortcuts.yml"),
        github := some s }
  | .obj u n g =>
    if jsTruthyS u && jsTruthyS n then
      { name := n.getD "", type := some "user", url := u, github := g }
    else
      let account := if g == some "." then selfGithub else g
      let nm := if jsTruthyS n then n else account
      { name := nm.getD "undefined", type := some "user",
        url := some ("https://raw.githubusercontent.com/" ++
          account.getD "undefined" ++ "/trovu-data-user/master/shortcuts.yml"),
        github := account }

/-- The single-pass include action on one entry when every include in the
document is same-namespace and every include target is include-free:
used to characterize addIncludes pointwise. -/
def applySameNs (sc : List (String × Shortcut)) (s : Shortcut) : Shortcut :=
  match s.inc with
  | none => s
  | some incl =>
    if jsTruthyS incl.key then
      if jsTruthyS incl.nsp then s
      else assignOpt s (assocFind sc (incl.key.getD ""))
    else s

/-- The number of entries across all namespaces that carry a given key
and are marked reachable. -/
def reachableCount (l : List NamespaceInfo) (k : String) : Nat :=
  (l.map (fun ni => ni.shortcuts.countP
    (fun p => p.1 == k && p.2.reachable == some true))).sum

/-- A fetch collaborator whose every response is a 404: no namespace is
resolvable, but no transport failure occurs. -/
def trivFo : FetchOracle := fun _ => .ok { status := 404, body := "" }

/-- A parser collaborator that always fails (never consulted on 404s). -/
def trivPo : ParseOracle := fun _ => none

/-- No argument metadata: a trivial UrlProcessor collaborator. -/
def noArgs : Option String → List String := fun _ => []

/-- Fetch collaborator for the transport-failure counterexample: the
namespace aa suffers a transport failure, bb answers 200. -/
def cexFo3 : FetchOracle := fun u =>
  if u == "https://data.trovu.net/data/shortcuts/aa.yml" then .error "network"
  else .ok { status := 200, body := "doc" }

/-- Parser for the transport-failure counterexample. -/
def cexPo3 : ParseOracle := fun t =>
  if t == "doc" then some [("x 1", .str "u")] else none

/-- Include-precedence counterexample document: the including entry and
the include target both author a title. -/
def cex2sc : List (String × Shortcut) :=
  [("a 0", { title := some "A", inc := some { key := some "b 0" } }),
   ("b 0", { url := some "U", title := some "B" })]

/-- Idempotence counterexample document: a chain of includes a -> b -> c. -/
def cexChain : List (String × Shortcut) :=
  [("a 0", { inc := some { key := some "b 0" } }),
   ("b 0", { inc := some { key := some "c 0" } }),
   ("c 0", { title := some "T" })]

/-- One include-resolution pass over a document with no other namespaces
available, keeping only the shortcut map. -/
def addIncludesOnce (sc : List (String × Shortcut)) :
    Option (List (String × Shortcut)) :=
  match addIncludes trivFo trivPo none sc [] with
  | .ok r => some r.1
  | .error _ => none

/-- Demo namespace stack for witnesses: b before a in the caller's list
(priorities 1 and 2), both defining key x 1, plus an unsubscribed
namespace also defining it. -/
def demoInfos : List NamespaceInfo :=
  [{ name := "b", priority := some 1,
     shortcuts := [("x 1", { url := some "B" })] },
   { name := "a", priority := some 2,
     shortcuts := [("x 1", { url := some "A" }), ("y 0", { url := some "Y" })] },
   { name := "u", priority := none,
     shortcuts := [("x 1", { url := some "U" })] }]

/-- Fetcher for the annotation-ordering scenario: both the listed
namespace aa and the on-demand namespace zz answer 200. -/
def raceFo : FetchOracle := fun u =>
  if u == "https://data.trovu.net/data/shortcuts/aa.yml" then
    .ok { status := 200, body := "aadoc" }
  else if u == "https://data.trovu.net/data/shortcuts/zz.yml" then
    .ok { status := 200, body := "zzdoc" }
  else .ok { status := 404, body := "" }

/-- Parser for the annotation-ordering scenario: aa holds one entry with
a cross-namespace include into zz, zz holds the target. -/
def racePo : ParseOracle := fun t =>
  if t == "aadoc" then
    some [("a 0", .obj { inc := some { key := some "x 1", nsp := some "zz" } })]
  else if t == "zzdoc" then
    some [("x 1", .str "https://x.example/q")]
  else none

/-- Env.js getNamespaceInfos (lines 96-106) with the event order the
code actually produces when every include needs an on-demand fetch:
line 98 awaits Object.values(...).forEach(async ...), which returns
undefined immediately, so this.addReachable(namespaceInfos) at line 104
runs one microtask later, before any include callback suspended at its
network fetch inside getShortcutFromNamespace can resume.  The reachable
pass therefore sees the pre-insertion map, and the include continuations
then fetch, insert and merge into the already-annotated map. -/
def getNamespaceInfosEventOrder (fo : FetchOracle) (po : ParseOracle)
    (getArgs : Option String → List String) (selfGithub : Option String)
    (namespaces : List NamespaceSpec) : Except String (Infos × Bool) :=
  match fetchShortcuts fo po selfGithub namespaces with
  | .error e => .error e
  | .ok (infos, err) =>
    let annotated := addReachableMap getArgs infos
    addIncludesAll fo po selfGithub (annotated.map Prod.fst) (annotated, err)


section AssocLemmas

variable {α : Type}

theorem assocFind_nil (k : String) : assocFind ([] : List (String × α)) k = none := rfl

theorem assocFind_cons (k' : String) (v : α) (l : List (String × α)) (k : String) :
    assocFind ((k', v) :: l) k = if k' == k then some v else assocFind l k := by
  cases hb : k' == k <;> simp [assocFind, List.find?_cons, hb]

theorem assocUpdate_nil (k : String) (v : α) :
    assocUpdate ([] : List (String × α)) k v = [] := rfl

theorem assocUpdate_cons (p : String × α) (t : List (String × α)) (k : String) (v : α) :
    assocUpdate (p :: t) k v = (if p.1 == k then (k, v) else p) :: assocUpdate t k v := rfl

theorem assocFind_eq_none_iff {l : List (String × α)} {k : String} :
    assocFind l k = none ↔ ∀ p ∈ l, p.1 ≠ k := by
  simp [assocFind, List.find?_eq_none]

theorem mem_of_assocFind_eq_some {l : List (String × α)} {k : String} {v : α}
    (h : assocFind l k = some v) : (k, v) ∈ l := by
  induction l with
  | nil => simp [assocFind] at h
  | cons p t ih =>
    obtain ⟨k1, v1⟩ := p
    rw [assocFind_cons] at h
    cases hb : k1 == k <;> rw [hb] at h
    · simp only [Bool.false_eq_true, if_neg, ite_false] at h
      exact List.mem_cons_of_mem _ (ih h)
    · simp only [if_true, ite_true] at h
      have hk : k1 = k := by simpa using hb
      have hv : v1 = v := Option.some.inj h
      rw [hk, hv]
      exact List.mem_cons_self _ _

theorem assocFind_isSome_of_mem {l : List (String × α)} {k : String} {v : α}
    (h : (k, v) ∈ l) : ∃ w, assocFind l k = some w := by
  induction l with
  | nil => simp at h
  | cons p t ih =>
    obtain ⟨k1, v1⟩ := p
    rcases List.mem_cons.mp h with h | h
    · cases h
      exact ⟨v, by simp [assocFind_cons]⟩
    · rcases ih h with ⟨w, hw⟩
      cases hb : k1 == k
      · exact ⟨w, by simp [assocFind_cons, hb, hw]⟩
      · exact ⟨v1, by simp [assocFind_cons, hb]⟩

theorem assocUpdate_map_fst (l : List (String × α)) (k : String) (v : α) :
    (assocUpdate l k v).map Prod.fst = l.map Prod.fst := by
  induction l with
  | nil => rfl
  | cons p t ih =>
    rw [assocUpdate_cons, List.map_cons, List.map_cons, ih]
    cases hb : p.1 == k
    · simp [hb]
    · have : p.1 = k := by simpa using hb
      simp [hb, this]

theorem assocFind_assocUpdate_self {l : List (String × α)} {k : String} (v : α)
    (h : k ∈ l.map Prod.fst) :
    assocFind (assocUpdate l k v) k = some v := by
  induction l with
  | nil => simp at h
  | cons p t ih =>
    rw [assocUpdate_cons]
    cases hb : p.1 == k
    · have hne : p.1 ≠ k := by simpa using hb
      simp only [hb, Bool.false_eq_true, if_neg, ite_false]
      rw [assocFind_cons]
      simp only [hb, Bool.false_eq_true, if_neg, ite_false]
      refine ih ?_
      simp only [List.map_cons, List.mem_cons] at h
      exact h.resolve_left (fun hx => hne hx.symm)
    · simp [hb, assocFind_cons]

theorem assocFind_assocUpdate_ne {l : List (String × α)} {k k' : String} (v : α)
    (h : k' ≠ k) :
    assocFind (assocUpdate l k v) k' = assocFind l k' := by
  induction l with
  | nil => rfl
  | cons p t ih =>
    rw [assocUpdate_cons]
    cases hb : p.1 == k
    · simp only [hb, Bool.false_eq_true, if_neg, ite_false]
      rw [assocFind_cons, assocFind_cons, ih]
    · have hk : p.1 = k := by simpa using hb
      have hne : (k == k') = false := by
        simp only [beq_eq_false_iff_ne]
        exact fun hx => h hx.symm
      have hne2 : (p.1 == k') = false := by
        simp only [beq_eq_false_iff_ne, hk]
        exact fun hx => h hx.symm
      simp only [hb, if_true, ite_true]
      rw [assocFind_cons, assocFind_cons, ih]
      simp [hne, hne2]

theorem mem_assocUpdate {l : List (String × α)} {k : String} {v : α} {p : String × α}
    (h : p ∈ assocUpdate l k v) : p ∈ l ∨ p = (k, v) := by
  simp only [assocUpdate, List.mem_map] at h
  obtain ⟨q, hq, he⟩ := h
  cases hb : q.1 == k <;> rw [hb] at he
  · simp only [Bool.false_eq_true, if_neg, ite_false] at he
    exact Or.inl (he ▸ hq)
  · simp only [if_true, ite_true] at he
    exact Or.inr he.symm

theorem pick_none_right (x : Option α) : pick x none = x := by
  cases x <;> rfl

theorem assocFind_append (l1 l2 : List (String × α)) (k : String) :
    assocFind (l1 ++ l2) k = pick (assocFind l1 k) (assocFind l2 k) := by
  induction l1 with
  | nil => rfl
  | cons p t ih =>
    obtain ⟨k1, v1⟩ := p
    rw [List.cons_append, assocFind_cons, assocFind_cons]
    cases hb : k1 == k
    · simp [hb, ih]
    · simp [hb, pick]

theorem assocFind_none_of_not_any {m : List (String × α)} {k : String}
    (hm : ¬ m.any (fun p => p.1 == k) = true) : assocFind m k = none := by
  rw [assocFind_eq_none_iff]
  intro p hp he
  exact hm (List.any_eq_true.mpr ⟨p, hp, by simp [he]⟩)

theorem assocFind_jsObjectSet_self (m : List (String × α)) (k : String) (v : α) :
    assocFind (jsObjectSet m k v) k = some v := by
  unfold jsObjectSet
  by_cases h : m.any (fun p => p.1 == k) = true
  · rw [if_pos h]
    refine assocFind_assocUpdate_self v ?_
    simp only [List.any_eq_true, beq_iff_eq] at h
    obtain ⟨p, hp, he⟩ := h
    exact List.mem_map.mpr ⟨p, hp, he⟩
  · rw [if_neg h, assocFind_append, assocFind_none_of_not_any h]
    simp [pick, assocFind_cons]

theorem assocFind_jsObjectSet_ne (m : List (String × α)) (k k' : String) (v : α)
    (h : k' ≠ k) :
    assocFind (jsObjectSet m k v) k' = assocFind m k' := by
  unfold jsObjectSet
  by_cases hm : m.any (fun p => p.1 == k) = true
  · rw [if_pos hm]
    exact assocFind_assocUpdate_ne v h
  · rw [if_neg hm, assocFind_append]
    have hne : (k == k') = false := by
      simp only [beq_eq_false_iff_ne]
      exact fun hx => h hx.symm
    have : assocFind [(k, v)] k' = none := by
      simp [assocFind_cons, hne, assocFind_nil]
    rw [this, pick_none_right]

theorem mem_jsObjectSet {m : List (String × α)} {k : String} {v : α} {p : String × α}
    (h : p ∈ jsObjectSet m k v) : p ∈ m ∨ p = (k, v) := by
  unfold jsObjectSet at h
  by_cases hm : m.any (fun q => q.1 == k) = true
  · rw [if_pos hm] at h
    exact mem_assocUpdate h
  · rw [if_neg hm] at h
    rcases List.mem_append.mp h with h | h
    · exact Or.inl h
    · simp only [List.mem_singleton] at h
      exact Or.inr h

theorem mem_foldl_jsObjectSet {l : List (String × α)} {p : String × α} :
    ∀ {acc : List (String × α)},
      p ∈ l.foldl (fun m q => jsObjectSet m q.1 q.2) acc → p ∈ acc ∨ p ∈ l := by
  induction l with
  | nil => intro acc h; exact Or.inl h
  | cons q t ih =>
    intro acc h
    simp only [List.foldl_cons] at h
    rcases ih h with h | h
    · rcases mem_jsObjectSet h with h | h
      · exact Or.inl h
      · right
        simp [h]
    · right
      simp [h]

theorem mem_jsFromEntries {l : List (String × α)} {p : String × α}
    (h : p ∈ jsFromEntries l) : p ∈ l := by
  unfold jsFromEntries at h
  rcases mem_foldl_jsObjectSet h with h | h
  · simp at h
  · exact h

end AssocLemmas

/-- C6 counterexample: the code tags a user-custom-URL spec and a Github
spec both with type user, never user-url or user-github. -/
theorem namespace_type_tags_cex :
    (getInitalNamespaceInfo none
        (.obj (some "https://example.test/shortcuts.yml") (some "mine") none)).type
      = some "user"
    ∧ (getInitalNamespaceInfo none
        (.obj (some "https://example.test/shortcuts.yml") (some "mine") none)).type
      ≠ some "user-url"
    ∧ (getInitalNamespaceInfo (some "me") (.str "johnsmith")).type = some "user"
    ∧ (getInitalNamespaceInfo (some "me") (.str "johnsmith")).type ≠ some "user-github" := by
  refine ⟨rfl, ?_, rfl, ?_⟩ <;> decide

/-- C6 amended: namespace classification follows first-match precedence
exactly as the spec states it, except that both user cases are tagged
with type user (the code never produces user-url or user-github): short
strings become site descriptors with the templated site URL, specs with
truthy url and name are kept as-is, and everything else takes the Github
path with the self-reference marker replaced and the name defaulted. -/
theorem classify_namespace_spec (selfGithub : Option String) (spec : NamespaceSpec) :
    getInitalNamespaceInfo selfGithub spec = classifyNamespaceSpec selfGithub spec := by
  cases spec with
  | str s =>
    by_cases hl : s.length < 4
    · simp [getInitalNamespaceInfo, classifyNamespaceSpec, hl,
        addFetchUrlToSiteNamespace]
    · have hdot : (some s == some ".") = false := by
        cases hb : some s == some "."
        · rfl
        · have : s = "." := by simpa using hb
          subst this
          exact absurd (by decide : (".").length < 4) hl
      simp [getInitalNamespaceInfo, classifyNamespaceSpec, hl,
        addFetchUrlToGithubNamespace, hdot, jsTruthyS]
  | obj u n g =>
    by_cases ht : (jsTruthyS u && jsTruthyS n) = true
    · simp [getInitalNamespaceInfo, classifyNamespaceSpec, ht]
    · simp only [getInitalNamespaceInfo, classifyNamespaceSpec, ht,
        Bool.false_eq_true, if_neg, ite_false, addFetchUrlToGithubNamespace]

/-- C4 counterexample: the key g * uses the wildcard argument-count marker
(which the claim says is kept with no diagnostic) and the key bad is
malformed (which the claim says is excluded); the code flags both in the
per-namespace diagnostic and excludes neither from the returned set. -/
theorem verify_wildcard_flagged_and_kept_cex :
    (verifyShortcuts [("g *", .str "https://example.test/q"), ("bad", .str "u")] "ns").2
      = ["g *", "bad"]
    ∧ (verifyShortcuts [("g *", .str "https://example.test/q"), ("bad", .str "u")] "ns").1.map Prod.fst
      = ["g *", "bad"] := by
  refine ⟨?_, ?_⟩ <;> decide

/-- C4 amended: verifyShortcuts reports, in one aggregated per-namespace
diagnostic, exactly the keys with no substring of the form non-whitespace
character, space, digit (the unanchored regex; the wildcard marker is
flagged, not accepted), it excludes nothing — every entry is retained —
and it normalizes bare-string entries into url-only objects. -/
theorem verify_diagnostic_and_retention (raw : List (String × RawVal)) (nsName : String) :
    (verifyShortcuts raw nsName).1.map Prod.fst = raw.map Prod.fst
    ∧ (verifyShortcuts raw nsName).2
      = (raw.map Prod.fst).filter (fun k => !hasKeyPattern k)
    ∧ (verifyShortcuts raw nsName).1 = raw.map (fun p => (p.1, normalizeShortcutVal p.2)) := by
  induction raw with
  | nil => exact ⟨rfl, rfl, rfl⟩
  | cons p t ih =>
    obtain ⟨k, v⟩ := p
    refine ⟨?_, ?_, ?_⟩
    · simp [verifyShortcuts, ih.1]
    · cases hb : hasKeyPattern k <;>
        simp [verifyShortcuts, List.filter_cons, hb, ih.2.1]
    · simp [verifyShortcuts, ih.2.2]

/-- C2 counterexample: entry a 0 authors title A and includes b 0 whose
title is B; Object.assign makes the include source win, so the merged
title is B, not the including entry's own A as the claim states. -/
theorem include_precedence_cex :
    (addIncludes trivFo trivPo none cex2sc []).map
        (fun r => (assocFind r.1 "a 0").map Shortcut.title)
      = .ok (some (some "B"))
    ∧ (some (some "B") : Option (Option String)) ≠ some (some "A") := by
  exact ⟨rfl, by decide⟩

/-- C8 counterexample: on the chain a 0 includes b 0 includes c 0, one
resolution pass leaves a 0 without a title while a second pass copies
title T into it, so resolving twice differs from resolving once. -/
theorem include_idempotence_cex :
    ((addIncludesOnce cexChain).bind
        (fun sc => (assocFind sc "a 0").map Shortcut.title)) = some none
    ∧ (((addIncludesOnce cexChain).bind addIncludesOnce).bind
        (fun sc => (assocFind sc "a 0").map Shortcut.title)) = some (some "T")
    ∧ ((addIncludesOnce cexChain).bind addIncludesOnce) ≠ addIncludesOnce cexChain := by
  refine ⟨rfl, rfl, ?_⟩
  decide

/-- C3 counterexample: a transport failure on namespace aa rejects the
joint Promise.all and aborts the whole fetchShortcuts with the
exception, so the healthy namespace bb does not resolve either — even
though bb alone resolves fine with the same collaborators. -/
theorem transport_failure_aborts_cex :
    fetchShortcuts cexFo3 cexPo3 none [.str "aa", .str "bb"] = .error "network"
    ∧ fetchShortcuts cexFo3 cexPo3 none [.str "bb"]
      = .ok ([("bb", { name := "bb"
                       type := some "site"
                       url := some "https://data.trovu.net/data/shortcuts/bb.yml"
                       priority := some 1
                       shortcuts := [("x 1", { url := some "u" })] })], false) := by
  exact ⟨rfl, rfl⟩

theorem verifyShortcuts_name (l : List (String × RawVal)) (n1 n2 : String) :
    verifyShortcuts l n1 = verifyShortcuts l n2 := by
  induction l with
  | nil => rfl
  | cons p t ih =>
    obtain ⟨k, v⟩ := p
    simp [verifyShortcuts, ih]

theorem verifyShortcuts_snd_dropName (l : List (String × RawVal)) (n : String) :
    (verifyShortcuts l n).2 = (verifyShortcuts l "").2 := by
  rw [verifyShortcuts_name l n ""]

theorem foldr_or_congr {β : Type} (l : List β) (f g : β → Bool)
    (h : ∀ a ∈ l, f a = g a) :
    l.foldr (fun a acc => f a || acc) false
      = l.foldr (fun a acc => g a || acc) false := by
  induction l with
  | nil => rfl
  | cons a t ih =>
    simp only [List.foldr_cons]
    rw [h a (by simp), ih (fun b hb => h b (by simp [hb]))]

theorem getInitialNamespaceInfos_priority_inj {selfGithub : Option String}
    {namespaces : List NamespaceSpec} :
    ∀ p ∈ getInitialNamespaceInfos selfGithub namespaces,
    ∀ q ∈ getInitialNamespaceInfos selfGithub namespaces,
      p.2.priority = q.2.priority → p = q := by
  intro p hp q hq hpq
  have hp' := mem_jsFromEntries hp
  have hq' := mem_jsFromEntries hq
  have hmap : (namespaces.enum.map (fun e =>
      let ni := getInitalNamespaceInfo selfGithub e.2
      (ni.name, { ni with priority := some ((e.1 : Int) + 1) }))).map
        (fun q => q.2.priority)
      = (namespaces.enum.map Prod.fst).map (fun i : Nat => some ((i : Int) + 1)) := by
    simp only [List.map_map]
    rfl
  have hnd : ((namespaces.enum.map (fun e =>
      let ni := getInitalNamespaceInfo selfGithub e.2
      (ni.name, { ni with priority := some ((e.1 : Int) + 1) }))).map
        (fun q => q.2.priority)).Nodup := by
    rw [hmap]
    refine List.Nodup.map ?_ (List.nodup_enum_map_fst namespaces)
    intro i j hij
    simp only [Option.some.injEq] at hij
    omega
  exact List.inj_on_of_nodup_map hnd hp' hq' hpq

theorem mem_startFetches {fo : FetchOracle} {infos : Infos}
    {pr : Option Int} {e : Except String Response} :
    (pr, e) ∈ startFetches fo infos ↔
      ∃ p ∈ infos, jsTruthyS p.2.url = true ∧ pr = p.2.priority
        ∧ e = fo (p.2.url.getD "") := by
  simp only [startFetches, List.mem_filterMap, List.mem_map]
  constructor
  · rintro ⟨ni, ⟨p, hp, rfl⟩, hni⟩
    by_cases ht : jsTruthyS p.2.url = true
    · rw [if_pos ht] at hni
      injection hni with hni
      exact ⟨p, hp, ht, (congrArg Prod.fst hni).symm, (congrArg Prod.snd hni).symm⟩
    · rw [if_neg ht] at hni
      exact absurd hni (by simp)
  · rintro ⟨p, hp, ht, rfl, rfl⟩
    exact ⟨p.2, ⟨p, hp, rfl⟩, by rw [if_pos ht]⟩

theorem awaitAll_eq_ok (ps : List (Option Int × Except String Response))
    (rs : List (Option Int × Response)) (h : awaitAll ps = .ok rs) :
    ps = rs.map (fun q => (q.1, Except.ok q.2)) := by
  induction ps generalizing rs with
  | nil =>
    simp only [awaitAll] at h
    injection h with h
    rw [← h]
    rfl
  | cons p t ih =>
    obtain ⟨pr, e⟩ := p
    cases e with
    | error msg => simp [awaitAll] at h
    | ok r =>
      simp only [awaitAll] at h
      cases hw : awaitAll t with
      | error msg => rw [hw] at h; simp [Except.map] at h
      | ok rs' =>
        rw [hw] at h
        simp only [Except.map] at h
        injection h with h
        rw [← h]
        simp [ih rs' hw]

theorem awaitAll_exists_ok (ps : List (Option Int × Except String Response))
    (h : ∀ q ∈ ps, ∃ r, q.2 = .ok r) : ∃ rs, awaitAll ps = .ok rs := by
  induction ps with
  | nil => exact ⟨[], rfl⟩
  | cons p t ih =>
    obtain ⟨pr, e⟩ := p
    obtain ⟨r, hr⟩ := h (pr, e) (by simp)
    simp only at hr
    subst hr
    obtain ⟨rs, hrs⟩ := ih (fun q hq => h q (by simp [hq]))
    exact ⟨(pr, r) :: rs, by simp [awaitAll, hrs, Except.map]⟩

theorem findResponse_attr (fo : FetchOracle) (selfGithub : Option String)
    (namespaces : List NamespaceSpec) (rs : List (Option Int × Response))
    (hw : awaitAll (startFetches fo
        (getInitialNamespaceInfos selfGithub namespaces)) = .ok rs) :
    ∀ p ∈ getInitialNamespaceInfos selfGithub namespaces,
      findResponse rs p.2.priority = ownResponse fo p.2.url := by
  intro p hp
  have hshape := awaitAll_eq_ok _ _ hw
  by_cases ht : jsTruthyS p.2.url = true
  · have hmem : (p.2.priority, fo (p.2.url.getD ""))
        ∈ startFetches fo (getInitialNamespaceInfos selfGithub namespaces) :=
      mem_startFetches.mpr ⟨p, hp, ht, rfl, rfl⟩
    rw [hshape] at hmem
    obtain ⟨q, hq, he⟩ := List.mem_map.mp hmem
    have hq1 : q.1 = p.2.priority := congrArg Prod.fst he
    have hq2 : Except.ok q.2 = fo (p.2.url.getD "") := congrArg Prod.snd he
    have hor : ownResponse fo p.2.url = some q.2 := by
      unfold ownResponse
      rw [if_pos ht, ← hq2]
      rfl
    rw [hor]
    cases hfind : rs.find? (fun x => x.1 == p.2.priority) with
    | none =>
      exfalso
      have hex : (rs.find? (fun x => x.1 == p.2.priority)).isSome := by
        rw [List.find?_isSome]
        exact ⟨q, hq, by simp [hq1]⟩
      rw [hfind] at hex
      simp at hex
    | some y =>
      have hy_mem := List.mem_of_find?_eq_some hfind
      have hy_key : y.1 = p.2.priority := by simpa using List.find?_some hfind
      have hy_fetch : (y.1, Except.ok y.2)
          ∈ startFetches fo (getInitialNamespaceInfos selfGithub namespaces) := by
        rw [hshape]
        exact List.mem_map.mpr ⟨y, hy_mem, rfl⟩
      obtain ⟨p', hp', ht', hpr, hfo⟩ := mem_startFetches.mp hy_fetch
      have hpp : p' = p :=
        getInitialNamespaceInfos_priority_inj p' hp' p hp (by rw [← hpr, hy_key])
      subst hpp
      have : (Except.ok y.2 : Except String Response) = Except.ok q.2 := by
        rw [hfo, ← hq2]
      injection this with hr2
      unfold findResponse
      rw [hfind]
      simp [hr2]
  · have hor : ownResponse fo p.2.url = none := by
      unfold ownResponse
      rw [if_neg ht]
    rw [hor]
    cases hfind : rs.find? (fun x => x.1 == p.2.priority) with
    | none =>
      unfold findResponse
      rw [hfind]
      rfl
    | some y =>
      exfalso
      have hy_mem := List.mem_of_find?_eq_some hfind
      have hy_key : y.1 = p.2.priority := by simpa using List.find?_some hfind
      have hy_fetch : (y.1, Except.ok y.2)
          ∈ startFetches fo (getInitialNamespaceInfos selfGithub namespaces) := by
        rw [hshape]
        exact List.mem_map.mpr ⟨y, hy_mem, rfl⟩
      obtain ⟨p', hp', ht', hpr, _⟩ := mem_startFetches.mp hy_fetch
      have hpp : p' = p :=
        getInitialNamespaceInfos_priority_inj p' hp' p hp (by rw [← hpr, hy_key])
      rw [hpp] at ht'
      exact ht ht'

theorem processResponses_char (po : ParseOracle)
    (rs : List (Option Int × Response)) (m : Infos) :
    processResponses po rs m
      = (m.map (fun p => (p.1, { p.2 with
            shortcuts := shortcutsOfResponse po (findResponse rs p.2.priority) p.2.name })),
         m.foldr (fun p acc =>
            errOfResponse po (findResponse rs p.2.priority) || acc) false) := by
  induction m with
  | nil => rfl
  | cons p t ih =>
    obtain ⟨n, ni⟩ := p
    cases hr : findResponse rs ni.priority with
    | none =>
      simp [processResponses, hr, shortcutsOfResponse, errOfResponse, ih]
    | some r =>
      cases hs : (r.status != 200) with
      | false =>
        have hs' : r.status = 200 := by simpa using hs
        simp [processResponses, hr, hs, hs', shortcutsOfResponse, errOfResponse, ih,
          verifyShortcuts_snd_dropName]
      | true =>
        have hs' : ¬ r.status = 200 := by simpa using hs
        simp [processResponses, hr, hs, hs', shortcutsOfResponse, errOfResponse, ih]

theorem fetchShortcuts_char (fo : FetchOracle) (po : ParseOracle)
    (selfGithub : Option String) (namespaces : List NamespaceSpec)
    (h : ∀ p ∈ getInitialNamespaceInfos selfGithub namespaces,
      jsTruthyS p.2.url = true → ∃ r, fo (p.2.url.getD "") = .ok r) :
    fetchShortcuts fo po selfGithub namespaces
      = .ok ((getInitialNamespaceInfos selfGithub namespaces).map
            (fun p => (p.1, { p.2 with
              shortcuts := expectedShortcuts fo po p.2.url p.2.name })),
          (getInitialNamespaceInfos selfGithub namespaces).foldr
            (fun p acc => errOfResponse po (ownResponse fo p.2.url) || acc) false) := by
  have hall : ∀ q ∈ startFetches fo (getInitialNamespaceInfos selfGithub namespaces),
      ∃ r, q.2 = .ok r := by
    intro q hq
    obtain ⟨p, hp, ht, hpr, hfo⟩ := mem_startFetches.mp (show (q.1, q.2) ∈ _ from hq)
    obtain ⟨r, hr⟩ := h p hp ht
    exact ⟨r, by rw [hfo, hr]⟩
  obtain ⟨rs, hrs⟩ := awaitAll_exists_ok _ hall
  have hattr := findResponse_attr fo selfGithub namespaces rs hrs
  simp only [fetchShortcuts, hrs]
  rw [processResponses_char]
  have h1 : (getInitialNamespaceInfos selfGithub namespaces).map
        (fun p => (p.1, { p.2 with
          shortcuts := shortcutsOfResponse po (findResponse rs p.2.priority) p.2.name }))
      = (getInitialNamespaceInfos selfGithub namespaces).map
        (fun p => (p.1, { p.2 with
          shortcuts := expectedShortcuts fo po p.2.url p.2.name })) :=
    List.map_congr_left (fun p hp => by rw [hattr p hp]; rfl)
  have h2 : (getInitialNamespaceInfos selfGithub namespaces).foldr
        (fun p acc => errOfResponse po (findResponse rs p.2.priority) || acc) false
      = (getInitialNamespaceInfos selfGithub namespaces).foldr
        (fun p acc => errOfResponse po (ownResponse fo p.2.url) || acc) false :=
    foldr_or_congr _ _ _ (fun p hp => by rw [hattr p hp])
  rw [h1, h2]

theorem fetchShortcuts_ok_imp {fo : FetchOracle} {po : ParseOracle}
    {selfGithub : Option String} {namespaces : List NamespaceSpec}
    {x : Infos × Bool} (hok : fetchShortcuts fo po selfGithub namespaces = .ok x) :
    ∀ p ∈ getInitialNamespaceInfos selfGithub namespaces,
      jsTruthyS p.2.url = true → ∃ r, fo (p.2.url.getD "") = .ok r := by
  intro p hp ht
  simp only [fetchShortcuts] at hok
  cases hw : awaitAll (startFetches fo (getInitialNamespaceInfos selfGithub namespaces)) with
  | error e => rw [hw] at hok; exact absurd hok (by simp)
  | ok rs =>
    have hshape := awaitAll_eq_ok _ _ hw
    have hmem : (p.2.priority, fo (p.2.url.getD ""))
        ∈ startFetches fo (getInitialNamespaceInfos selfGithub namespaces) :=
      mem_startFetches.mpr ⟨p, hp, ht, rfl, rfl⟩
    rw [hshape] at hmem
    obtain ⟨q, _, he⟩ := List.mem_map.mp hmem
    exact ⟨q.2, (congrArg Prod.snd he).symm⟩

/-- C3 amended: when no fetch suffers a transport failure, a non-success
response or a parse failure degrades exactly that namespace to an empty
shortcut set while every other namespace still resolves from its own
response; but a transport failure (a rejected fetch promise) rejects the
joint await and aborts the whole resolution (see the counterexample). -/
theorem local_failures_degrade_namespace (fo : FetchOracle) (po : ParseOracle)
    (selfGithub : Option String) (namespaces : List NamespaceSpec)
    (h : ∀ p ∈ getInitialNamespaceInfos selfGithub namespaces,
      jsTruthyS p.2.url = true → ∃ r, fo (p.2.url.getD "") = .ok r) :
    ∃ infos err, fetchShortcuts fo po selfGithub namespaces = .ok (infos, err)
    ∧ (∀ p ∈ infos, p.2.shortcuts = expectedShortcuts fo po p.2.url p.2.name)
    ∧ (∀ p ∈ infos, ∀ r, ownResponse fo p.2.url = some r → r.status ≠ 200 →
        p.2.shortcuts = [])
    ∧ (∀ p ∈ infos, ∀ r, ownResponse fo p.2.url = some r → r.status = 200 →
        po r.body = none → p.2.shortcuts = []) := by
  refine ⟨_, _, fetchShortcuts_char fo po selfGithub namespaces h, ?_, ?_, ?_⟩
  · intro p hp
    obtain ⟨q, _, rfl⟩ := List.mem_map.mp hp
    rfl
  · intro p hp r hro hrs
    obtain ⟨q, _, rfl⟩ := List.mem_map.mp hp
    have hb : (r.status != 200) = true := by simpa using hrs
    simp only [expectedShortcuts, hro, shortcutsOfResponse, hb]
    rfl
  · intro p hp r hro hrs hpo
    obtain ⟨q, _, rfl⟩ := List.mem_map.mp hp
    have hb : (r.status != 200) = false := by simpa using hrs
    simp only [expectedShortcuts, hro, shortcutsOfResponse, hb]
    simp [parseShortcutsFromYml, hpo, verifyShortcuts]

/-- C3 witness. -/
theorem local_failures_degrade_namespace_witness :
    ∃ infos err, fetchShortcuts trivFo trivPo none [.str "aa", .str "bb"]
        = .ok (infos, err)
    ∧ (∀ p ∈ infos, p.2.shortcuts = expectedShortcuts trivFo trivPo p.2.url p.2.name)
    ∧ (∀ p ∈ infos, ∀ r, ownResponse trivFo p.2.url = some r → r.status ≠ 200 →
        p.2.shortcuts = [])
    ∧ (∀ p ∈ infos, ∀ r, ownResponse trivFo p.2.url = some r → r.status = 200 →
        trivPo r.body = none → p.2.shortcuts = []) :=
  local_failures_degrade_namespace trivFo trivPo none [.str "aa", .str "bb"]
    (fun _ _ _ => ⟨{ status := 404, body := "" }, rfl⟩)

/-- C7: response collection is keyed by descriptor priority, so the
outcome is a function of each descriptor's own URL's fetch result alone:
two sessions whose oracles agree on every descriptor's URL produce
identical results (whatever the completion order, which the keyed
collection never consults), and in a successful session every
descriptor's shortcut set is computed from the response fetched from its
own URL. -/
theorem fetch_attribution_deterministic (fo1 fo2 : FetchOracle) (po : ParseOracle)
    (selfGithub : Option String) (namespaces : List NamespaceSpec)
    (hagree : ∀ p ∈ getInitialNamespaceInfos selfGithub namespaces,
      jsTruthyS p.2.url = true →
        fo1 (p.2.url.getD "") = fo2 (p.2.url.getD "")) :
    fetchShortcuts fo1 po selfGithub namespaces
      = fetchShortcuts fo2 po selfGithub namespaces
    ∧ ∀ infos err, fetchShortcuts fo1 po selfGithub namespaces = .ok (infos, err) →
        ∀ p ∈ infos, p.2.shortcuts = expectedShortcuts fo1 po p.2.url p.2.name := by
  constructor
  · have hsf : startFetches fo1 (getInitialNamespaceInfos selfGithub namespaces)
        = startFetches fo2 (getInitialNamespaceInfos selfGithub namespaces) := by
      unfold startFetches
      refine List.filterMap_congr ?_
      intro ni hni
      obtain ⟨p, hp, rfl⟩ := List.mem_map.mp hni
      by_cases ht : jsTruthyS p.2.url = true
      · rw [if_pos ht, if_pos ht, hagree p hp ht]
      · rw [if_neg ht, if_neg ht]
    simp only [fetchShortcuts, hsf]
  · intro infos err hok
    have h := fetchShortcuts_ok_imp hok
    have hc := fetchShortcuts_char fo1 po selfGithub namespaces h
    rw [hok] at hc
    injection hc with hc
    have hinfos : infos = (getInitialNamespaceInfos selfGithub namespaces).map
        (fun p => (p.1, { p.2 with
          shortcuts := expectedShortcuts fo1 po p.2.url p.2.name })) :=
      congrArg Prod.fst hc
    intro p hp
    rw [hinfos] at hp
    obtain ⟨q, _, rfl⟩ := List.mem_map.mp hp
    rfl

/-- C7 witness. -/
theorem fetch_attribution_deterministic_witness :
    fetchShortcuts trivFo trivPo none [.str "aa"]
      = fetchShortcuts trivFo trivPo none [.str "aa"]
    ∧ ∀ infos err, fetchShortcuts trivFo trivPo none [.str "aa"] = .ok (infos, err) →
        ∀ p ∈ infos, p.2.shortcuts = expectedShortcuts trivFo trivPo p.2.url p.2.name :=
  fetch_attribution_deterministic trivFo trivFo trivPo none [.str "aa"]
    (fun _ _ _ => rfl)

theorem foldr_or_eq_false {β : Type} (l : List β) (f : β → Bool)
    (h : ∀ a ∈ l, f a = false) :
    l.foldr (fun a acc => f a || acc) false = false := by
  induction l with
  | nil => rfl
  | cons a t ih =>
    simp only [List.foldr_cons]
    rw [h a (by simp), ih (fun b hb => h b (by simp [hb]))]
    rfl

theorem map_pair_fst {β : Type} (l : List (String × β)) (f : String × β → β) :
    (l.map (fun p => (p.1, f p))).map Prod.fst = l.map Prod.fst := by
  rw [List.map_map]
  rfl

theorem jsObjectSet_map_fst_of_found {m : List (String × NamespaceInfo)}
    {n : String} {ni : NamespaceInfo} (v : NamespaceInfo)
    (hf : assocFind m n = some ni) :
    (jsObjectSet m n v).map Prod.fst = m.map Prod.fst := by
  unfold jsObjectSet
  have hany : m.any (fun p => p.1 == n) = true :=
    List.any_eq_true.mpr ⟨(n, ni), mem_of_assocFind_eq_some hf, by simp⟩
  rw [if_pos hany]
  exact assocUpdate_map_fst m n v

theorem addIncludes_nil (fo : FetchOracle) (po : ParseOracle)
    (selfGithub : Option String) (m : Infos) :
    addIncludes fo po selfGithub [] m = .ok ([], m, false) := rfl

theorem addIncludesAll_empty (fo : FetchOracle) (po : ParseOracle)
    (selfGithub : Option String) (names : List String) :
    ∀ (m : Infos) (e : Bool), (∀ p ∈ m, p.2.shortcuts = []) →
    ∃ m', addIncludesAll fo po selfGithub names (m, e) = .ok (m', e)
      ∧ (∀ p ∈ m', p.2.shortcuts = []) ∧ m'.map Prod.fst = m.map Prod.fst := by
  induction names with
  | nil => exact fun m e h => ⟨m, rfl, h, rfl⟩
  | cons n rest ih =>
    intro m e h
    cases hf : assocFind m n with
    | none =>
      obtain ⟨m', hm', h1, h2⟩ := ih m e h
      exact ⟨m', by simp [addIncludesAll, hf, hm'], h1, h2⟩
    | some ni =>
      have hni : ni.shortcuts = [] := h (n, ni) (mem_of_assocFind_eq_some hf)
      have hinc : addIncludes fo po selfGithub ni.shortcuts m = .ok ([], m, false) := by
        rw [hni]
        rfl
      have hkeys : (jsObjectSet m n { ni with shortcuts := [] }).map Prod.fst
          = m.map Prod.fst := jsObjectSet_map_fst_of_found _ hf
      have hinv : ∀ p ∈ jsObjectSet m n { ni with shortcuts := [] },
          p.2.shortcuts = [] := by
        intro p hp
        rcases mem_jsObjectSet hp with hp | hp
        · exact h p hp
        · rw [hp]
      obtain ⟨m', hm', h1, h2⟩ := ih _ e hinv
      refine ⟨m', ?_, h1, by rw [h2, hkeys]⟩
      simp only [addIncludesAll, hf, hinc, Bool.or_false]
      exact hm'

theorem annotateList_empty (getArgs : Option String → List String) :
    ∀ (l : List NamespaceInfo) (found : List String),
      (∀ ni ∈ l, ni.shortcuts = []) →
      ∀ ni' ∈ (annotateList getArgs found l).1, ni'.shortcuts = [] := by
  intro l
  induction l with
  | nil => intro found _ ni' h'; simp [annotateList] at h'
  | cons ni rest ih =>
    intro found h ni' h'
    have hni : ni.shortcuts = [] := h ni (by simp)
    cases hs : isSubscribed ni with
    | true =>
      rw [annotateList, hs] at h'
      simp only [if_true, ite_true] at h'
      rw [hni] at h'
      rcases List.mem_cons.mp h' with h' | h'
      · rw [h']
        rfl
      · exact ih _ (fun x hx => h x (by simp [hx])) ni' h'
    | false =>
      rw [annotateList, hs] at h'
      simp only [Bool.false_eq_true, if_neg, ite_false] at h'
      rcases List.mem_cons.mp h' with h' | h'
      · rw [h']; exact hni
      · exact ih _ (fun x hx => h x (by simp [hx])) ni' h'

theorem addReachable_empty (getArgs : Option String → List String)
    (l : List NamespaceInfo) (h : ∀ ni ∈ l, ni.shortcuts = []) :
    ∀ ni' ∈ addReachable getArgs l, ni'.shortcuts = [] := by
  refine annotateList_empty getArgs _ [] ?_
  intro ni hni
  exact h ni ((List.perm_insertionSort prioGe l).mem_iff.mp hni)

theorem addReachableMap_fst (getArgs : Option String → List String) (m : Infos) :
    (addReachableMap getArgs m).map Prod.fst = m.map Prod.fst := by
  unfold addReachableMap
  rw [List.map_map]
  rfl

theorem addReachableMap_empty (getArgs : Option String → List String) (m : Infos)
    (h : ∀ p ∈ m, p.2.shortcuts = []) :
    ∀ p ∈ addReachableMap getArgs m, p.2.shortcuts = [] := by
  intro p hp
  unfold addReachableMap at hp
  obtain ⟨q, hq, rfl⟩ := List.mem_map.mp hp
  cases hfind : (addReachable getArgs (m.map Prod.snd)).find?
      (fun ni => ni.name == q.2.name) with
  | none => simpa [hfind] using h q hq
  | some ni' =>
    have hmem := List.mem_of_find?_eq_some hfind
    have : ni'.shortcuts = [] := by
      refine addReachable_empty getArgs _ ?_ ni' hmem
      intro x hx
      obtain ⟨r, hr, rfl⟩ := List.mem_map.mp hx
      exact h r hr
    simpa [hfind] using this

/-- C5 counterexample: with every fetch answering 404, no namespace in
the caller's list is resolvable, yet populate's namespace resolution
returns an ordinary snapshot (namespace present, empty shortcut set,
error flag clear) — there is no Failed result. -/
theorem populate_no_failed_cex :
    getNamespaceInfos trivFo trivPo noArgs none [.str "aa"]
      = .ok ([("aa", { name := "aa"
                       type := some "site"
                       url := some "https://data.trovu.net/data/shortcuts/aa.yml"
                       priority := some 1 })], false) := rfl

/-- C5 amended: when no namespace is resolvable because every fetch
returns a non-success response, populate's namespace resolution reports
no terminal Failed value: it returns a normal snapshot containing every
caller-listed namespace with an empty shortcut set, with the error flag
still false (the fetch-failure branch only logs). -/
theorem populate_degraded_snapshot (fo : FetchOracle) (po : ParseOracle)
    (getArgs : Option String → List String) (selfGithub : Option String)
    (namespaces : List NamespaceSpec)
    (h : ∀ u, ∃ r, fo u = .ok r ∧ r.status ≠ 200) :
    ∃ m, getNamespaceInfos fo po getArgs selfGithub namespaces = .ok (m, false)
    ∧ (∀ p ∈ m, p.2.shortcuts = [])
    ∧ m.map Prod.fst = (getInitialNamespaceInfos selfGithub namespaces).map Prod.fst := by
  have h' : ∀ p ∈ getInitialNamespaceInfos selfGithub namespaces,
      jsTruthyS p.2.url = true → ∃ r, fo (p.2.url.getD "") = .ok r :=
    fun p _ _ => (h _).elim (fun r hr => ⟨r, hr.1⟩)
  have hc := fetchShortcuts_char fo po selfGithub namespaces h'
  have hemp : ∀ (u : Option String) (nm : String),
      expectedShortcuts fo po u nm = [] := by
    intro u nm
    unfold expectedShortcuts ownResponse
    by_cases ht : jsTruthyS u = true
    · rw [if_pos ht]
      obtain ⟨r, hr, hs⟩ := h (u.getD "")
      rw [hr]
      have hb : (r.status != 200) = true := by simpa using hs
      simp [Except.toOption, shortcutsOfResponse, hb]
    · rw [if_neg ht]
      rfl
  have herr : ∀ (u : Option String), errOfResponse po (ownResponse fo u) = false := by
    intro u
    unfold ownResponse
    by_cases ht : jsTruthyS u = true
    · rw [if_pos ht]
      obtain ⟨r, hr, hs⟩ := h (u.getD "")
      rw [hr]
      have hb : (r.status != 200) = true := by simpa using hs
      simp [Except.toOption, errOfResponse, hb]
    · rw [if_neg ht]
      rfl
  have hMemp : ∀ p ∈ (getInitialNamespaceInfos selfGithub namespaces).map
      (fun p => (p.1, { p.2 with
        shortcuts := expectedShortcuts fo po p.2.url p.2.name })), p.2.shortcuts = [] := by
    intro p hp
    obtain ⟨q, _, rfl⟩ := List.mem_map.mp hp
    exact hemp _ _
  have hE : (getInitialNamespaceInfos selfGithub namespaces).foldr
      (fun p acc => errOfResponse po (ownResponse fo p.2.url) || acc) false = false :=
    foldr_or_eq_false _ _ (fun p _ => herr _)
  obtain ⟨m1, hm1, hinv1, hkeys1⟩ := addIncludesAll_empty fo po selfGithub
    (((getInitialNamespaceInfos selfGithub namespaces).map
      (fun p => (p.1, { p.2 with
        shortcuts := expectedShortcuts fo po p.2.url p.2.name }))).map Prod.fst)
    ((getInitialNamespaceInfos selfGithub namespaces).map
      (fun p => (p.1, { p.2 with
        shortcuts := expectedShortcuts fo po p.2.url p.2.name })))
    false hMemp
  refine ⟨addReachableMap getArgs m1, ?_, addReachableMap_empty getArgs m1 hinv1, ?_⟩
  · rw [hE] at hc
    simp only [getNamespaceInfos, hc, hm1]
  · rw [addReachableMap_fst, hkeys1, map_pair_fst]

/-- C5 witness. -/
theorem populate_degraded_snapshot_witness :
    ∃ m, getNamespaceInfos trivFo trivPo noArgs none [.str "aa", .str "bb"]
        = .ok (m, false)
    ∧ (∀ p ∈ m, p.2.shortcuts = [])
    ∧ m.map Prod.fst = (getInitialNamespaceInfos none [.str "aa", .str "bb"]).map Prod.fst :=
  populate_degraded_snapshot trivFo trivPo noArgs none [.str "aa", .str "bb"]
    (fun _ => ⟨{ status := 404, body := "" }, rfl, by decide⟩)

theorem addIncludesStep_keys {fo : FetchOracle} {po : ParseOracle}
    {selfGithub : Option String} {st : List (String × Shortcut) × Infos × Bool}
    {k' : String} {st' : List (String × Shortcut) × Infos × Bool}
    (h : addIncludesStep fo po selfGithub st k' = .ok st') :
    st'.1.map Prod.fst = st.1.map Prod.fst := by
  unfold addIncludesStep at h
  split at h
  · injection h with h
    rw [← h]
  · split at h
    · injection h with h
      rw [← h]
    · split at h
      · split at h
        · split at h
          · exact absurd h (by simp)
          · injection h with h
            rw [← h]
            exact assocUpdate_map_fst _ _ _
        · injection h with h
          rw [← h]
          exact assocUpdate_map_fst _ _ _
      · injection h with h
        rw [← h]

theorem addIncludesStep_find_ne {fo : FetchOracle} {po : ParseOracle}
    {selfGithub : Option String} {st : List (String × Shortcut) × Infos × Bool}
    {k' : String} {st' : List (String × Shortcut) × Infos × Bool}
    (h : addIncludesStep fo po selfGithub st k' = .ok st') {k : String} (hne : k ≠ k') :
    assocFind st'.1 k = assocFind st.1 k := by
  unfold addIncludesStep at h
  split at h
  · injection h with h
    rw [← h]
  · split at h
    · injection h with h
      rw [← h]
    · split at h
      · split at h
        · split at h
          · exact absurd h (by simp)
          · injection h with h
            rw [← h]
            exact assocFind_assocUpdate_ne _ hne
        · injection h with h
          rw [← h]
          exact assocFind_assocUpdate_ne _ hne
      · injection h with h
        rw [← h]

theorem addIncludesStep_incfree {fo : FetchOracle} {po : ParseOracle}
    {selfGithub : Option String} {st : List (String × Shortcut) × Infos × Bool}
    {k'' k : String} {s : Shortcut}
    {st' : List (String × Shortcut) × Infos × Bool}
    (hk : assocFind st.1 k = some s) (hfree : s.inc = none)
    (h : addIncludesStep fo po selfGithub st k'' = .ok st') :
    assocFind st'.1 k = some s := by
  by_cases hkk : k = k''
  · subst hkk
    unfold addIncludesStep at h
    split at h
    next heq =>
      rw [hk] at heq
      exact absurd heq (by simp)
    next s' heq =>
      rw [hk] at heq
      injection heq with heq
      subst heq
      rw [hfree] at h
      injection h with h
      rw [← h]
      exact hk
  · rw [addIncludesStep_find_ne h hkk]
    exact hk

theorem addIncludesGo_keys {fo : FetchOracle} {po : ParseOracle}
    {selfGithub : Option String} :
    ∀ {ks : List String} {st st' : List (String × Shortcut) × Infos × Bool},
      addIncludesGo fo po selfGithub ks st = .ok st' →
      st'.1.map Prod.fst = st.1.map Prod.fst := by
  intro ks
  induction ks with
  | nil =>
    intro st st' h
    injection h with h
    rw [← h]
  | cons k0 rest ih =>
    intro st st' h
    unfold addIncludesGo at h
    cases hs : addIncludesStep fo po selfGithub st k0 with
    | error e => rw [hs] at h; exact absurd h (by simp)
    | ok st1 =>
      rw [hs] at h
      rw [ih h, addIncludesStep_keys hs]

theorem addIncludesGo_find_not_mem {fo : FetchOracle} {po : ParseOracle}
    {selfGithub : Option String} :
    ∀ {ks : List String} {st st' : List (String × Shortcut) × Infos × Bool},
      addIncludesGo fo po selfGithub ks st = .ok st' →
      ∀ {k : String}, k ∉ ks → assocFind st'.1 k = assocFind st.1 k := by
  intro ks
  induction ks with
  | nil =>
    intro st st' h k _
    injection h with h
    rw [← h]
  | cons k0 rest ih =>
    intro st st' h k hk
    unfold addIncludesGo at h
    cases hs : addIncludesStep fo po selfGithub st k0 with
    | error e => rw [hs] at h; exact absurd h (by simp)
    | ok st1 =>
      rw [hs] at h
      have h1 : k ≠ k0 := fun he => hk (by simp [he])
      have h2 : k ∉ rest := fun he => hk (by simp [he])
      rw [ih h h2, addIncludesStep_find_ne hs h1]

theorem addIncludesGo_incfree {fo : FetchOracle} {po : ParseOracle}
    {selfGithub : Option String} :
    ∀ {ks : List String} {st st' : List (String × Shortcut) × Infos × Bool}
      {k : String} {s : Shortcut},
      assocFind st.1 k = some s → s.inc = none →
      addIncludesGo fo po selfGithub ks st = .ok st' →
      assocFind st'.1 k = some s := by
  intro ks
  induction ks with
  | nil =>
    intro st st' k s hk _ h
    injection h with h
    rw [← h]
    exact hk
  | cons k0 rest ih =>
    intro st st' k s hk hfree h
    unfold addIncludesGo at h
    cases hs : addIncludesStep fo po selfGithub st k0 with
    | error e => rw [hs] at h; exact absurd h (by simp)
    | ok st1 =>
      rw [hs] at h
      exact ih (addIncludesStep_incfree hk hfree hs) hfree h

theorem addIncludesGo_append {fo : FetchOracle} {po : ParseOracle}
    {selfGithub : Option String} :
    ∀ {ks1 ks2 : List String} {st st' : List (String × Shortcut) × Infos × Bool},
      addIncludesGo fo po selfGithub (ks1 ++ ks2) st = .ok st' →
      ∃ st1, addIncludesGo fo po selfGithub ks1 st = .ok st1
        ∧ addIncludesGo fo po selfGithub ks2 st1 = .ok st' := by
  intro ks1
  induction ks1 with
  | nil => intro ks2 st st' h; exact ⟨st, rfl, h⟩
  | cons k0 rest ih =>
    intro ks2 st st' h
    rw [List.cons_append] at h
    unfold addIncludesGo at h
    cases hs : addIncludesStep fo po selfGithub st k0 with
    | error e => rw [hs] at h; exact absurd h (by simp)
    | ok st1 =>
      rw [hs] at h
      obtain ⟨stm, h1, h2⟩ := ih h
      refine ⟨stm, ?_, h2⟩
      unfold addIncludesGo
      rw [hs]
      exact h1

theorem pick_eq_ite {α : Type} (a b : Option α) :
    pick a b = if a.isSome then a else b := by
  cases a <;> rfl

/-- C2 amended: whenever an entry carrying an include directive with a
truthy key is resolved -- by same-namespace lookup or by cross-namespace
retrieval -- the entry stored back is Object.assign(entry, target)
applied to the target's state at that moment: for every field the
target then defines, the target's value is the one present in the
result, the including entry's own value survives only for fields the
target leaves undefined, and an undefined target leaves the entry
unchanged. -/
theorem include_merge_target_state_overwrites (fo : FetchOracle)
    (po : ParseOracle) (selfGithub : Option String)
    (st : List (String × Shortcut) × Infos × Bool) (k : String)
    (s : Shortcut) (incl : IncludeRef)
    (hk : assocFind st.1 k = some s)
    (hincl : s.inc = some incl)
    (hkey : jsTruthyS incl.key = true) :
    (jsTruthyS incl.nsp = false →
      addIncludesStep fo po selfGithub st k
        = .ok (assocUpdate st.1 k
            (assignOpt s (assocFind st.1 (incl.key.getD ""))),
          st.2.1, st.2.2))
    ∧ (∀ tOpt infos' err', jsTruthyS incl.nsp = true →
        getShortcutFromNamespace fo po selfGithub (incl.key.getD "")
            (incl.nsp.getD "") st.2.1 = .ok (tOpt, infos', err') →
        addIncludesStep fo po selfGithub st k
          = .ok (assocUpdate st.1 k (assignOpt s tOpt), infos',
              st.2.2 || err'))
    ∧ (∀ t : Shortcut,
        (assign s t).url = (if t.url.isSome then t.url else s.url)
        ∧ (assign s t).title = (if t.title.isSome then t.title else s.title)
        ∧ (assign s t).inc = (if t.inc.isSome then t.inc else s.inc)
        ∧ (assign s t).tags = (if t.tags.isSome then t.tags else s.tags)
        ∧ (assign s t).key = (if t.key.isSome then t.key else s.key)
        ∧ (assign s t).keyword
            = (if t.keyword.isSome then t.keyword else s.keyword)
        ∧ (assign s t).argumentCount
            = (if t.argumentCount.isSome then t.argumentCount
               else s.argumentCount)
        ∧ (assign s t).nsName = (if t.nsName.isSome then t.nsName else s.nsName)
        ∧ (assign s t).args = (if t.args.isSome then t.args else s.args)
        ∧ (assign s t).reachable
            = (if t.reachable.isSome then t.reachable else s.reachable))
    ∧ (∀ t, assignOpt s (some t) = assign s t)
    ∧ assignOpt s none = s := by
  refine ⟨?_, ?_, ?_, fun t => rfl, rfl⟩
  · intro hnsp
    unfold addIncludesStep
    simp [hk, hincl, hkey, hnsp]
  · intro tOpt infos' err' hnsp hgs
    unfold addIncludesStep
    simp [hk, hincl, hkey, hnsp, hgs]
  · intro t
    exact ⟨pick_eq_ite t.url s.url, pick_eq_ite t.title s.title,
      pick_eq_ite t.inc s.inc, pick_eq_ite t.tags s.tags,
      pick_eq_ite t.key s.key, pick_eq_ite t.keyword s.keyword,
      pick_eq_ite t.argumentCount s.argumentCount,
      pick_eq_ite t.nsName s.nsName, pick_eq_ite t.args s.args,
      pick_eq_ite t.reachable s.reachable⟩

/-- C2 witness: the same-namespace branch at a concrete two-entry
document, plus the precedence of the target's title over the including
entry's own. -/
theorem include_merge_target_state_overwrites_witness :
    addIncludesStep trivFo trivPo none
        ([("a 0", { title := some "mine", inc := some { key := some "b 0" } }),
          ("b 0", { title := some "theirs", url := some "U" })], [], false)
        "a 0"
      = .ok ([("a 0",
            assign { title := some "mine", inc := some { key := some "b 0" } }
              { title := some "theirs", url := some "U" }),
          ("b 0", { title := some "theirs", url := some "U" })], [], false)
    ∧ (assign { title := some "mine", inc := some { key := some "b 0" } }
          { title := some "theirs", url := some "U" }).title
        = some "theirs" := by
  constructor
  · exact (include_merge_target_state_overwrites trivFo trivPo none
      ([("a 0", { title := some "mine", inc := some { key := some "b 0" } }),
        ("b 0", { title := some "theirs", url := some "U" })], [], false)
      "a 0" { title := some "mine", inc := some { key := some "b 0" } }
      { key := some "b 0" } rfl rfl (by decide)).1 rfl
  · rfl

theorem assocFind_eq_none_of_not_mem {α : Type} {l : List (String × α)} {k : String}
    (h : k ∉ l.map Prod.fst) : assocFind l k = none :=
  assocFind_eq_none_iff.mpr
    (fun p hp he => h (he ▸ List.mem_map.mpr ⟨p, hp, rfl⟩))

theorem not_mem_of_assocFind_eq_none {α : Type} {l : List (String × α)} {k : String}
    (h : assocFind l k = none) : k ∉ l.map Prod.fst := by
  intro hx
  obtain ⟨p, hp, hpe⟩ := List.mem_map.mp hx
  exact assocFind_eq_none_iff.mp h p hp hpe

theorem app3_ne_empty (a n b : String) (h : 0 < a.length) : (a ++ n ++ b) ≠ "" := by
  intro he
  have h2 := congrArg String.length he
  rw [String.length_append, String.length_append] at h2
  have e3 : ("" : String).length = 0 := rfl
  omega

theorem getInitalNamespaceInfo_str_name (selfGithub : Option String) (n : String) :
    (getInitalNamespaceInfo selfGithub (.str n)).name = n := by
  simp only [getInitalNamespaceInfo]
  by_cases hl : n.length < 4
  · rw [if_pos hl]
    rfl
  · rw [if_neg hl]
    have hdot : ((some n : Option String) == some ".") = false := by
      cases hb : (some n : Option String) == some "."
      · rfl
      · have : n = "." := by simpa using hb
        subst this
        exact absurd (by decide : (".").length < 4) hl
    unfold addFetchUrlToGithubNamespace
    simp [hdot, jsTruthyS]

theorem getInitalNamespaceInfo_str_url_truthy (selfGithub : Option String) (n : String) :
    jsTruthyS (getInitalNamespaceInfo selfGithub (.str n)).url = true := by
  simp only [getInitalNamespaceInfo]
  by_cases hl : n.length < 4
  · rw [if_pos hl]
    unfold addFetchUrlToSiteNamespace jsTruthyS
    simp only [beq_eq_false_iff_ne, Bool.not_eq_true']
    exact app3_ne_empty _ n ".yml" (by decide)
  · rw [if_neg hl]
    unfold addFetchUrlToGithubNamespace jsTruthyS
    simp only [beq_eq_false_iff_ne, Bool.not_eq_true']
    exact app3_ne_empty _ _ _ (by decide)

theorem jsFromEntries_singleton {α : Type} (k : String) (v : α) :
    jsFromEntries [(k, v)] = [(k, v)] := rfl

theorem objAssignMap_singleton {α : Type} (m : List (String × α)) (k : String) (v : α) :
    objAssignMap m [(k, v)] = jsObjectSet m k v := rfl

theorem getInitialNamespaceInfos_str_singleton (selfGithub : Option String) (n : String) :
    getInitialNamespaceInfos selfGithub [.str n]
      = [(n, { getInitalNamespaceInfo selfGithub (.str n) with priority := some 1 })] := by
  unfold getInitialNamespaceInfos
  have he : ([NamespaceSpec.str n]).enum = [(0, NamespaceSpec.str n)] := rfl
  rw [he]
  simp only [List.map_cons, List.map_nil]
  rw [getInitalNamespaceInfo_str_name]
  rfl

theorem expectedShortcuts_of_fail (fo : FetchOracle) (po : ParseOracle)
    (u : Option String) (nm : String)
    (hr : ∃ r, fo (u.getD "") = .ok r ∧ r.status ≠ 200) :
    expectedShortcuts fo po u nm = [] := by
  unfold expectedShortcuts ownResponse
  by_cases ht : jsTruthyS u = true
  · rw [if_pos ht]
    obtain ⟨r, hfo, hs⟩ := hr
    rw [hfo]
    have hb : (r.status != 200) = true := by simpa using hs
    simp [Except.toOption, shortcutsOfResponse, hb]
  · rw [if_neg ht]
    rfl

theorem fetchShortcuts_str_singleton (fo : FetchOracle) (po : ParseOracle)
    (selfGithub : Option String) (n : String) (x : Infos × Bool)
    (hok : fetchShortcuts fo po selfGithub [.str n] = .ok x) :
    ∃ ni, x = ([(n, ni)], errOfResponse po (ownResponse fo ni.url))
      ∧ ni.priority = some 1 ∧ ni.name = n
      ∧ ni.url = (getInitalNamespaceInfo selfGithub (.str n)).url
      ∧ ni.shortcuts = expectedShortcuts fo po ni.url ni.name := by
  have h := fetchShortcuts_ok_imp hok
  have hc := fetchShortcuts_char fo po selfGithub [.str n] h
  rw [getInitialNamespaceInfos_str_singleton] at hc
  simp only [List.map_cons, List.map_nil, List.foldr_cons, List.foldr_nil,
    Bool.or_false] at hc
  have hx : x = ([(n, { getInitalNamespaceInfo selfGithub (.str n) with
      priority := some 1
      shortcuts := expectedShortcuts fo po
        (getInitalNamespaceInfo selfGithub (.str n)).url
        (getInitalNamespaceInfo selfGithub (.str n)).name })],
    errOfResponse po (ownResponse fo (getInitalNamespaceInfo selfGithub (.str n)).url)) := by
    have := hc.symm.trans hok
    injection this with h'
    exact h'.symm
  refine ⟨{ getInitalNamespaceInfo selfGithub (.str n) with
      priority := some 1
      shortcuts := expectedShortcuts fo po
        (getInitalNamespaceInfo selfGithub (.str n)).url
        (getInitalNamespaceInfo selfGithub (.str n)).name }, ?_, rfl,
    getInitalNamespaceInfo_str_name selfGithub n, rfl, ?_⟩
  · exact hx
  · rfl

theorem getShortcutFromNamespace_infos {fo : FetchOracle} {po : ParseOracle}
    {selfGithub : Option String} {key nsName : String} {infos : Infos}
    {res : Option Shortcut × Infos × Bool}
    (h : getShortcutFromNamespace fo po selfGithub key nsName infos = .ok res) :
    res.2.1 = infos
    ∨ ∃ x, fetchShortcuts fo po selfGithub [.str nsName] = .ok x
        ∧ res.2.1 = objAssignMap infos x.1 := by
  unfold getShortcutFromNamespace at h
  cases hfind : assocFind infos nsName with
  | some ni =>
    simp only [hfind] at h
    injection h with h
    rw [← h]
    exact Or.inl rfl
  | none =>
    simp only [hfind] at h
    cases hfetch : fetchShortcuts fo po selfGithub [.str nsName] with
    | error e => simp [hfetch] at h
    | ok x =>
      obtain ⟨newInfos, err⟩ := x
      simp only [hfetch] at h
      cases hfind2 : assocFind (objAssignMap infos newInfos) nsName with
      | some ni =>
        simp only [hfind2] at h
        injection h with h
        rw [← h]
        right
        refine ⟨(newInfos, err), ?_, ?_⟩ <;> rfl
      | none => simp [hfind2] at h

theorem addIncludesStep_P {fo : FetchOracle} {po : ParseOracle}
    {selfGithub : Option String} {nsn : String}
    (hfail : ∃ r, fo ((getInitalNamespaceInfo selfGithub (.str nsn)).url.getD "")
        = .ok r ∧ r.status ≠ 200)
    {st : List (String × Shortcut) × Infos × Bool} {k' : String}
    {st' : List (String × Shortcut) × Infos × Bool}
    (hP : assocFind st.2.1 nsn = none
      ∨ ∃ ni, assocFind st.2.1 nsn = some ni ∧ ni.shortcuts = [])
    (h : addIncludesStep fo po selfGithub st k' = .ok st') :
    assocFind st'.2.1 nsn = none
      ∨ ∃ ni, assocFind st'.2.1 nsn = some ni ∧ ni.shortcuts = [] := by
  unfold addIncludesStep at h
  split at h
  · injection h with h
    rw [← h]
    exact hP
  · split at h
    · injection h with h
      rw [← h]
      exact hP
    · split at h
      · split at h
        · split at h
          · exact absurd h (by simp)
          · next tOpt infosR errR hg =>
            injection h with h
            rw [← h]
            have hI := getShortcutFromNamespace_infos hg
            dsimp only at hI
            rcases hI with heq | ⟨x, hfetch, heq⟩
            · dsimp only
              rw [heq]
              exact hP
            · obtain ⟨ni, hx, _, hname, hurl, hsc⟩ :=
                fetchShortcuts_str_singleton _ _ _ _ _ hfetch
              dsimp only
              rw [heq, hx, objAssignMap_singleton]
              by_cases hnn : nsn = ni.name
              · refine Or.inr ⟨ni, ?_, ?_⟩
                · rw [hnn, ← hname]
                  exact assocFind_jsObjectSet_self _ _ _
                · rw [hsc, hurl]
                  refine expectedShortcuts_of_fail _ _ _ _ ?_
                  rw [← hname, ← hnn]
                  exact hfail
              · rw [← hname, assocFind_jsObjectSet_ne _ _ _ _ hnn]
                exact hP
        · injection h with h
          rw [← h]
          exact hP
      · injection h with h
        rw [← h]
        exact hP

theorem addIncludesGo_P {fo : FetchOracle} {po : ParseOracle}
    {selfGithub : Option String} {nsn : String}
    (hfail : ∃ r, fo ((getInitalNamespaceInfo selfGithub (.str nsn)).url.getD "")
        = .ok r ∧ r.status ≠ 200) :
    ∀ {ks : List String} {st st' : List (String × Shortcut) × Infos × Bool},
      (assocFind st.2.1 nsn = none
        ∨ ∃ ni, assocFind st.2.1 nsn = some ni ∧ ni.shortcuts = []) →
      addIncludesGo fo po selfGithub ks st = .ok st' →
      assocFind st'.2.1 nsn = none
        ∨ ∃ ni, assocFind st'.2.1 nsn = some ni ∧ ni.shortcuts = [] := by
  intro ks
  induction ks with
  | nil =>
    intro st st' hP h
    injection h with h
    rw [← h]
    exact hP
  | cons k0 rest ih =>
    intro st st' hP h
    unfold addIncludesGo at h
    cases hs : addIncludesStep fo po selfGithub st k0 with
    | error e => rw [hs] at h; exact absurd h (by simp)
    | ok st1 =>
      rw [hs] at h
      exact ih (addIncludesStep_P hfail hP hs) h

theorem getShortcutFromNamespace_P_none {fo : FetchOracle} {po : ParseOracle}
    {selfGithub : Option String} {key nsn : String} {infos : Infos}
    {res : Option Shortcut × Infos × Bool}
    (hfail : ∃ r, fo ((getInitalNamespaceInfo selfGithub (.str nsn)).url.getD "")
        = .ok r ∧ r.status ≠ 200)
    (hP : assocFind infos nsn = none
      ∨ ∃ ni, assocFind infos nsn = some ni ∧ ni.shortcuts = [])
    (h : getShortcutFromNamespace fo po selfGithub key nsn infos = .ok res) :
    res.1 = none := by
  unfold getShortcutFromNamespace at h
  rcases hP with hnone | ⟨ni, hfind, hsc⟩
  · simp only [hnone] at h
    cases hfetch : fetchShortcuts fo po selfGithub [.str nsn] with
    | error e => simp [hfetch] at h
    | ok x =>
      simp only [hfetch] at h
      obtain ⟨ni, hx, _, hname, hurl, hsc⟩ :=
        fetchShortcuts_str_singleton _ _ _ _ _ hfetch
      have hsce : ni.shortcuts = [] := by
        rw [hsc, hurl]
        exact expectedShortcuts_of_fail _ _ _ _ hfail
      rw [hx] at h
      rw [show objAssignMap infos ([(nsn, ni)], errOfResponse po (ownResponse fo ni.url)).1
          = jsObjectSet infos nsn ni from rfl] at h
      rw [assocFind_jsObjectSet_self] at h
      injection h with h
      rw [← h]
      dsimp only
      rw [hsce]
      rfl
  · simp only [hfind] at h
    injection h with h
    rw [← h]
    dsimp only
    rw [hsc]
    rfl

/-- C9: an include whose target key is absent never throws and leaves the
including entry with exactly its own authored fields — both for a
same-namespace include whose key is missing from the map, and for a
cross-namespace include whose namespace is fetched on demand but answers
with a non-success status, leaving an empty shortcut set to look up in. -/
theorem missing_include_target_keeps_fields (fo : FetchOracle) (po : ParseOracle)
    (selfGithub : Option String) (sc : List (String × Shortcut)) (infos : Infos)
    (k ik : String) (s : Shortcut) (incl : IncludeRef)
    (hnd : (sc.map Prod.fst).Nodup)
    (hk : assocFind sc k = some s)
    (hincl : s.inc = some incl)
    (hik : incl.key = some ik) (hik2 : ik ≠ "")
    (hcase :
      (jsTruthyS incl.nsp = false ∧ assocFind sc ik = none)
      ∨ (∃ nsn, incl.nsp = some nsn ∧ nsn ≠ "" ∧ assocFind infos nsn = none
          ∧ ∃ r, fo ((getInitalNamespaceInfo selfGithub (.str nsn)).url.getD "")
              = .ok r ∧ r.status ≠ 200)) :
    ∀ sc' infos' err, addIncludes fo po selfGithub sc infos = .ok (sc', infos', err) →
      assocFind sc' k = some s := by
  intro sc' infos' err h
  have hkmem : k ∈ sc.map Prod.fst :=
    List.mem_map.mpr ⟨(k, s), mem_of_assocFind_eq_some hk, rfl⟩
  obtain ⟨before, after, hsplit⟩ := List.append_of_mem hkmem
  have hnd2 : (k :: (before ++ after)).Nodup := List.nodup_middle.mp (hsplit ▸ hnd)
  have hkb : k ∉ before := fun hx => (List.nodup_cons.mp hnd2).1 (by simp [hx])
  have hka : k ∉ after := fun hx => (List.nodup_cons.mp hnd2).1 (by simp [hx])
  unfold addIncludes at h
  rw [hsplit] at h
  obtain ⟨st1, h1, h2⟩ := addIncludesGo_append h
  unfold addIncludesGo at h2
  cases hstep : addIncludesStep fo po selfGithub st1 k with
  | error e => rw [hstep] at h2; exact absurd h2 (by simp)
  | ok st2 =>
    rw [hstep] at h2
    have hfind_k : assocFind st1.1 k = some s := by
      rw [addIncludesGo_find_not_mem h1 hkb]
      exact hk
    have hbe : (ik == "") = false := by
      simp only [beq_eq_false_iff_ne]
      exact hik2
    have hkeyT : jsTruthyS (some ik) = true := by
      simp [jsTruthyS, hbe]
    have hst2 : assocFind st2.1 k = some s := by
      rcases hcase with ⟨hnsp, htgt⟩ | ⟨nsn, hnsp, hnsne, hP0, hfail⟩
      · have htnone : assocFind st1.1 ik = none := by
          apply assocFind_eq_none_of_not_mem
          rw [addIncludesGo_keys h1]
          exact not_mem_of_assocFind_eq_none htgt
        have hstep_eq : addIncludesStep fo po selfGithub st1 k
            = .ok (assocUpdate st1.1 k s, st1.2.1, st1.2.2) := by
          unfold addIncludesStep
          simp [hfind_k, hincl, hik, hkeyT, hnsp, htnone, assignOpt]
        have hv : st2 = (assocUpdate st1.1 k s, st1.2.1, st1.2.2) := by
          have := hstep_eq.symm.trans hstep
          injection this with h'
          exact h'.symm
        rw [hv]
        refine assocFind_assocUpdate_self _ ?_
        rw [addIncludesGo_keys h1]
        exact hkmem
      · have hP1 : assocFind st1.2.1 nsn = none
            ∨ ∃ ni, assocFind st1.2.1 nsn = some ni ∧ ni.shortcuts = [] := by
          refine addIncludesGo_P hfail ?_ h1
          exact Or.inl hP0
        have hnsbe : (nsn == "") = false := by
          simp only [beq_eq_false_iff_ne]
          exact hnsne
        have hnspT : jsTruthyS (some nsn) = true := by
          simp [jsTruthyS, hnsbe]
        cases hgs : getShortcutFromNamespace fo po selfGithub ik nsn st1.2.1 with
        | error e =>
          have hstep_err : addIncludesStep fo po selfGithub st1 k = .error e := by
            unfold addIncludesStep
            simp [hfind_k, hincl, hik, hkeyT, hnspT, hnsp, hgs]
          rw [hstep_err] at hstep
          exact absurd hstep (by simp)
        | ok res =>
          obtain ⟨tOpt, infosR, errR⟩ := res
          have hres1 : tOpt = none :=
            getShortcutFromNamespace_P_none hfail hP1 hgs
          subst hres1
          have hstep_eq : addIncludesStep fo po selfGithub st1 k
              = .ok (assocUpdate st1.1 k s, infosR, st1.2.2 || errR) := by
            unfold addIncludesStep
            simp [hfind_k, hincl, hik, hkeyT, hnspT, hnsp, hgs, assignOpt]
          have hv : st2 = (assocUpdate st1.1 k s, infosR, st1.2.2 || errR) := by
            have := hstep_eq.symm.trans hstep
            injection this with h'
            exact h'.symm
          rw [hv]
          refine assocFind_assocUpdate_self _ ?_
          rw [addIncludesGo_keys h1]
          exact hkmem
    have h2' : addIncludesGo fo po selfGithub after st2 = .ok (sc', infos', err) := h2
    have hfinal : assocFind (sc', infos', err).1 k = assocFind st2.1 k :=
      addIncludesGo_find_not_mem h2' hka
    rw [show assocFind sc' k = assocFind (sc', infos', err).1 k from rfl, hfinal]
    exact hst2

/-- C9 witness: a cross-namespace include into the absent namespace zz
whose fetch answers 404. -/
theorem missing_include_target_keeps_fields_witness :
    ∃ sc' infos' err,
      addIncludes trivFo trivPo none
          [("a 0", { title := some "own",
                     inc := some { key := some "x 1", nsp := some "zz" } })] []
        = .ok (sc', infos', err)
      ∧ assocFind sc' "a 0"
        = some { title := some "own",
                 inc := some { key := some "x 1", nsp := some "zz" } } := by
  refine ⟨_, _, _, rfl, ?_⟩
  exact missing_include_target_keeps_fields trivFo trivPo none
    [("a 0", { title := some "own",
               inc := some { key := some "x 1", nsp := some "zz" } })] []
    "a 0" "x 1" { title := some "own",
                  inc := some { key := some "x 1", nsp := some "zz" } }
    { key := some "x 1", nsp := some "zz" }
    (by decide) rfl rfl rfl (by decide)
    (Or.inr ⟨"zz", rfl, by decide, rfl,
      ⟨{ status := 404, body := "" }, rfl, by decide⟩⟩)
    _ _ _ rfl

theorem markEntries_keys (getArgs : Option String → List String)
    (namespaceInfo : NamespaceInfo) :
    ∀ (sc : List (String × Shortcut)) (found : List String),
      (markEntries getArgs namespaceInfo sc found).1.map Prod.fst = sc.map Prod.fst := by
  intro sc
  induction sc with
  | nil => intro found; rfl
  | cons p rest ih =>
    intro found
    obtain ⟨k0, s⟩ := p
    simp [markEntries, ih]

theorem markEntries_reachable_isSome (getArgs : Option String → List String)
    (namespaceInfo : NamespaceInfo) :
    ∀ (sc : List (String × Shortcut)) (found : List String),
      ∀ p ∈ (markEntries getArgs namespaceInfo sc found).1, (p.2.reachable).isSome := by
  intro sc
  induction sc with
  | nil => intro found p hp; simp [markEntries] at hp
  | cons q rest ih =>
    intro found p hp
    obtain ⟨k0, s⟩ := q
    simp only [markEntries] at hp
    rcases List.mem_cons.mp hp with hp | hp
    · rw [hp]
      rfl
    · exact ih (k0 :: found) p hp

theorem annotateList_subscribed_mem (getArgs : Option String → List String) :
    ∀ (l : List NamespaceInfo) (found : List String) (ni : NamespaceInfo),
      ni ∈ l → isSubscribed ni = true →
      ∃ ni' ∈ (annotateList getArgs found l).1, ni'.name = ni.name
        ∧ ni'.priority = ni.priority
        ∧ ∀ p ∈ ni'.shortcuts, (p.2.reachable).isSome := by
  intro l
  induction l with
  | nil => intro found ni h; simp at h
  | cons nj rest ih =>
    intro found ni hmem hsub
    rcases List.mem_cons.mp hmem with hmem | hmem
    · subst hmem
      rw [annotateList, hsub]
      simp only [if_true, ite_true]
      refine ⟨{ ni with shortcuts := (markEntries getArgs ni ni.shortcuts found).1 },
        by simp, rfl, rfl, ?_⟩
      exact markEntries_reachable_isSome getArgs ni ni.shortcuts found
    · cases hs : isSubscribed nj with
      | true =>
        rw [annotateList, hs]
        simp only [if_true, ite_true]
        obtain ⟨ni', hm', hrest⟩ :=
          ih ((markEntries getArgs nj nj.shortcuts found).2) ni hmem hsub
        exact ⟨ni', by simp [hm'], hrest⟩
      | false =>
        rw [annotateList, hs]
        simp only [Bool.false_eq_true, if_neg, ite_false]
        obtain ⟨ni', hm', hrest⟩ := ih found ni hmem hsub
        exact ⟨ni', by simp [hm'], hrest⟩

theorem addReachable_subscribed_mem (getArgs : Option String → List String)
    (l : List NamespaceInfo) (ni : NamespaceInfo) (hmem : ni ∈ l)
    (hsub : isSubscribed ni = true) :
    ∃ ni' ∈ addReachable getArgs l, ni'.name = ni.name ∧ ni'.priority = ni.priority
      ∧ ∀ p ∈ ni'.shortcuts, (p.2.reachable).isSome :=
  annotateList_subscribed_mem getArgs _ [] ni
    ((List.perm_insertionSort prioGe l).mem_iff.mpr hmem) hsub

/-- C10 amended: a namespace fetched on demand for a cross-namespace
include is inserted into the shared map exactly as the sole element of
a caller-supplied list -- with priority 1 -- hence counts as
subscribed; but its shortcut set is the raw verified fetch result,
untouched by any reachable computation, and the session's single
addReachable pass runs over the pre-insertion map, in which the
namespace does not occur. -/
theorem on_demand_namespace_inserted_unannotated (fo : FetchOracle)
    (po : ParseOracle) (selfGithub : Option String)
    (getArgs : Option String → List String)
    (key nsn : String) (infos : Infos)
    (habs : assocFind infos nsn = none) :
    ∀ res, getShortcutFromNamespace fo po selfGithub key nsn infos = .ok res →
      ∃ ni x, fetchShortcuts fo po selfGithub [.str nsn] = .ok x
        ∧ x.1 = [(nsn, ni)]
        ∧ res.2.1 = objAssignMap infos x.1
        ∧ assocFind res.2.1 nsn = some ni
        ∧ ni.priority = some 1
        ∧ isSubscribed ni = true
        ∧ ni.shortcuts = expectedShortcuts fo po ni.url ni.name
        ∧ assocFind (addReachableMap getArgs infos) nsn = none := by
  intro res h
  unfold getShortcutFromNamespace at h
  simp only [habs] at h
  cases hfetch : fetchShortcuts fo po selfGithub [.str nsn] with
  | error e => simp [hfetch] at h
  | ok x =>
    simp only [hfetch] at h
    obtain ⟨ni, hx, hprio, hname, hurl, hsc⟩ :=
      fetchShortcuts_str_singleton _ _ _ _ _ hfetch
    have hsub : isSubscribed ni = true := by
      unfold isSubscribed
      rw [hprio]
      rfl
    have hx1 : x.1 = [(nsn, ni)] := by rw [hx]
    rw [hx1] at h
    rw [show objAssignMap infos [(nsn, ni)] = jsObjectSet infos nsn ni from rfl] at h
    rw [assocFind_jsObjectSet_self] at h
    injection h with h
    rw [← h]
    refine ⟨ni, x, ?_, hx1, by rw [hx1]; rfl, ?_, hprio, hsub, hsc, ?_⟩
    · rfl
    · exact assocFind_jsObjectSet_self _ _ _
    · refine assocFind_eq_none_of_not_mem ?_
      rw [addReachableMap_fst]
      exact not_mem_of_assocFind_eq_none habs

/-- C10 witness: the on-demand namespace zz, fetched for key x 1 from an
empty map, at the concrete collaborators of the ordering counterexample. -/
theorem on_demand_namespace_inserted_unannotated_witness :
    ∃ res, getShortcutFromNamespace raceFo racePo none "x 1" "zz" [] = .ok res
      ∧ ∃ ni x, fetchShortcuts raceFo racePo none [.str "zz"] = .ok x
        ∧ x.1 = [("zz", ni)]
        ∧ res.2.1 = objAssignMap [] x.1
        ∧ assocFind res.2.1 "zz" = some ni
        ∧ ni.priority = some 1
        ∧ isSubscribed ni = true
        ∧ ni.shortcuts = expectedShortcuts raceFo racePo ni.url ni.name
        ∧ assocFind (addReachableMap noArgs []) "zz" = none := by
  refine ⟨_, rfl, ?_⟩
  exact on_demand_namespace_inserted_unannotated raceFo racePo none noArgs
    "x 1" "zz" [] rfl _ rfl

/-- C10 counterexample: in the event order the awaited forEach produces,
the session's one addReachable pass runs before the on-demand fetch
resolves, so the namespace zz fetched on demand ends up in the map with
priority 1 and subscribed, yet its entry carries no reachable flag,
while the caller-listed namespace aa was annotated. -/
theorem on_demand_reachable_race_cex :
    ∃ infos err,
      getNamespaceInfosEventOrder raceFo racePo noArgs none [.str "aa"]
        = .ok (infos, err)
      ∧ (∃ na, assocFind infos "aa" = some na
          ∧ ∃ sa, assocFind na.shortcuts "a 0" = some sa
            ∧ sa.reachable = some true)
      ∧ (∃ ni, assocFind infos "zz" = some ni
          ∧ ni.priority = some 1
          ∧ isSubscribed ni = true
          ∧ ∃ sz, assocFind ni.shortcuts "x 1" = some sz
            ∧ sz.reachable = none) := by
  refine ⟨_, _, rfl, ⟨_, rfl, _, rfl, rfl⟩, ⟨_, rfl, rfl, rfl, _, rfl, rfl⟩⟩

theorem markEntries_found_mem (getArgs : Option String → List String)
    (namespaceInfo : NamespaceInfo) :
    ∀ (sc : List (String × Shortcut)) (found : List String) (k : String),
      k ∈ (markEntries getArgs namespaceInfo sc found).2
        ↔ k ∈ found ∨ k ∈ sc.map Prod.fst := by
  intro sc
  induction sc with
  | nil => intro found k; simp [markEntries]
  | cons q rest ih =>
    intro found k
    obtain ⟨k0, s⟩ := q
    simp only [markEntries, List.map_cons, List.mem_cons]
    rw [ih (k0 :: found) k]
    simp only [List.mem_cons]
    tauto

theorem someBoolBeqTrue (c : Bool) :
    ((some (!c) : Option Bool) == some true) = !c := by
  cases c <;> rfl

theorem markEntries_count (getArgs : Option String → List String)
    (namespaceInfo : NamespaceInfo) :
    ∀ (sc : List (String × Shortcut)) (found : List String) (k : String),
      (markEntries getArgs namespaceInfo sc found).1.countP
          (fun p => p.1 == k && p.2.reachable == some true) ≤ 1
      ∧ (k ∈ found →
          (markEntries getArgs namespaceInfo sc found).1.countP
            (fun p => p.1 == k && p.2.reachable == some true) = 0)
      ∧ (k ∉ sc.map Prod.fst →
          (markEntries getArgs namespaceInfo sc found).1.countP
            (fun p => p.1 == k && p.2.reachable == some true) = 0) := by
  intro sc
  induction sc with
  | nil =>
    intro found k
    exact ⟨by simp [markEntries], fun _ => by simp [markEntries],
      fun _ => by simp [markEntries]⟩
  | cons q rest ih =>
    intro found k
    obtain ⟨k0, s⟩ := q
    have hrec := ih (k0 :: found) k
    by_cases hk0 : k0 = k
    · subst hk0
      have h0 : (markEntries getArgs namespaceInfo rest (k0 :: found)).1.countP
          (fun p => p.1 == k0 && p.2.reachable == some true) = 0 :=
        hrec.2.1 (by simp)
      by_cases hf : k0 ∈ found
      · have hc : found.contains k0 = true := by simp [hf]
        refine ⟨?_, fun _ => ?_, fun _ => ?_⟩ <;>
          simp [markEntries, List.countP_cons, someBoolBeqTrue, hc, h0, hf]
      · have hc : found.contains k0 = false := by simp [hf]
        refine ⟨?_, fun hmem => absurd hmem hf, fun hkeys => absurd (by simp) hkeys⟩
        simp [markEntries, List.countP_cons, someBoolBeqTrue, hc, h0, hf]
    · have hb : (k0 == k) = false := by simp [hk0]
      refine ⟨?_, fun hmem => ?_, fun hkeys => ?_⟩
      · have hle := hrec.1
        simp only [markEntries, List.countP_cons, someBoolBeqTrue, hb]
        simp [hle]
      · have h0 := hrec.2.1 (by simp [hmem])
        simp only [markEntries, List.countP_cons, someBoolBeqTrue, hb]
        simp [h0]
      · have hkr : k ∉ rest.map Prod.fst := fun hx => hkeys (by simp [hx])
        have h0 := hrec.2.2 hkr
        simp only [markEntries, List.countP_cons, someBoolBeqTrue, hb]
        simp [h0]

theorem reachPred_iff (k : String) (p : String × Shortcut) :
    (p.1 == k && p.2.reachable == some true) = true
      ↔ p.1 = k ∧ p.2.reachable = some true := by
  simp [Bool.and_eq_true]

theorem markEntries_reachable_not_found (getArgs : Option String → List String)
    (namespaceInfo : NamespaceInfo) (sc : List (String × Shortcut))
    (found : List String) (k : String) (p : String × Shortcut)
    (hp : p ∈ (markEntries getArgs namespaceInfo sc found).1)
    (hk : p.1 = k) (hr : p.2.reachable = some true) : k ∉ found := by
  intro hf
  have h0 := (markEntries_count getArgs namespaceInfo sc found k).2.1 hf
  rw [List.countP_eq_zero] at h0
  exact h0 p hp ((reachPred_iff k p).mpr ⟨hk, hr⟩)

theorem annotateList_count (getArgs : Option String → List String) :
    ∀ (l : List NamespaceInfo) (found : List String) (k : String),
      (∀ ni ∈ l, isSubscribed ni = false →
        ∀ p ∈ ni.shortcuts, p.2.reachable ≠ some true) →
      reachableCount (annotateList getArgs found l).1 k ≤ 1
      ∧ (k ∈ found → reachableCount (annotateList getArgs found l).1 k = 0) := by
  intro l
  induction l with
  | nil =>
    intro found k _
    exact ⟨by simp [reachableCount, annotateList], fun _ => by
      simp [reachableCount, annotateList]⟩
  | cons ni rest ih =>
    intro found k h
    have hm := markEntries_count getArgs ni ni.shortcuts found k
    cases hs : isSubscribed ni with
    | true =>
      have hih := ih ((markEntries getArgs ni ni.shortcuts found).2) k
        (fun x hx => h x (by simp [hx]))
      simp only [reachableCount] at hih
      have hfound : ∀ k', k' ∈ found ∨ k' ∈ ni.shortcuts.map Prod.fst →
          k' ∈ (markEntries getArgs ni ni.shortcuts found).2 :=
        fun k' hk' => (markEntries_found_mem getArgs ni ni.shortcuts found k').mpr hk'
      rw [annotateList, hs]
      simp only [if_true, ite_true, reachableCount, List.map_cons, List.sum_cons]
      constructor
      · by_cases hkf : k ∈ found
        · rw [hm.2.1 hkf, hih.2 (hfound k (Or.inl hkf))]
          omega
        · by_cases hkk : k ∈ ni.shortcuts.map Prod.fst
          · have h2 := hih.2 (hfound k (Or.inr hkk))
            rw [h2]
            have h1 := hm.1
            omega
          · rw [hm.2.2 hkk]
            have := hih.1
            omega
      · intro hkf
        rw [hm.2.1 hkf, hih.2 (hfound k (Or.inl hkf))]
    | false =>
      have hih := ih found k (fun x hx => h x (by simp [hx]))
      simp only [reachableCount] at hih
      have h0 : ni.shortcuts.countP
          (fun p => p.1 == k && p.2.reachable == some true) = 0 := by
        rw [List.countP_eq_zero]
        intro p hp hpred
        exact h ni (by simp) hs p hp ((reachPred_iff k p).mp hpred).2
      rw [annotateList, hs]
      simp only [Bool.false_eq_true, if_neg, ite_false, reachableCount,
        List.map_cons, List.sum_cons]
      refine ⟨?_, fun hkf => ?_⟩
      · rw [h0]
        have := hih.1
        omega
      · rw [h0]
        have := hih.2 hkf
        omega

theorem annotateList_reachable_max (getArgs : Option String → List String) :
    ∀ (l : List NamespaceInfo) (found : List String) (k : String),
      List.Pairwise prioGe l →
      (∀ ni ∈ l, isSubscribed ni = false →
        ∀ p ∈ ni.shortcuts, p.2.reachable ≠ some true) →
      ∀ ni' ∈ (annotateList getArgs found l).1, ∀ p ∈ ni'.shortcuts, p.1 = k →
        p.2.reachable = some true →
        isSubscribed ni' = true ∧ k ∉ found
        ∧ ∀ mi ∈ l, isSubscribed mi = true → k ∈ mi.shortcuts.map Prod.fst →
            priVal mi ≤ priVal ni' := by
  intro l
  induction l with
  | nil =>
    intro found k _ _ ni' hm
    simp [annotateList] at hm
  | cons ni rest ih =>
    intro found k hpw h ni' hm p hp hk hr
    have hpw1 : ∀ mi ∈ rest, prioGe ni mi := (List.pairwise_cons.mp hpw).1
    have hpw2 : List.Pairwise prioGe rest := (List.pairwise_cons.mp hpw).2
    cases hs : isSubscribed ni with
    | true =>
      rw [annotateList, hs] at hm
      simp only [if_true, ite_true] at hm
      rcases List.mem_cons.mp hm with hm | hm
      · have hp' : p ∈ (markEntries getArgs ni ni.shortcuts found).1 := by
          rw [hm] at hp
          exact hp
        have hnf := markEntries_reachable_not_found getArgs ni ni.shortcuts
          found k p hp' hk hr
        refine ⟨by rw [hm]; exact hs, hnf, ?_⟩
        intro mi hmi hmisub hmik
        have hpriv : priVal ni' = priVal ni := by rw [hm]; rfl
        rcases List.mem_cons.mp hmi with hmi | hmi
        · rw [hpriv, hmi]
        · rw [hpriv]
          exact hpw1 mi hmi
      · have hih := ih ((markEntries getArgs ni ni.shortcuts found).2) k hpw2
          (fun x hx => h x (by simp [hx])) ni' hm p hp hk hr
        have hnf' := hih.2.1
        refine ⟨hih.1, ?_, ?_⟩
        · intro hf
          exact hnf' ((markEntries_found_mem getArgs ni ni.shortcuts found k).mpr
            (Or.inl hf))
        · intro mi hmi hmisub hmik
          rcases List.mem_cons.mp hmi with hmi | hmi
          · exfalso
            refine hnf' ((markEntries_found_mem getArgs ni ni.shortcuts found k).mpr ?_)
            right
            rw [← hmi]
            exact hmik
          · exact hih.2.2 mi hmi hmisub hmik
    | false =>
      rw [annotateList, hs] at hm
      simp only [Bool.false_eq_true, if_neg, ite_false] at hm
      rcases List.mem_cons.mp hm with hm | hm
      · exfalso
        refine h ni (by simp) hs p ?_ hr
        rw [← hm]
        exact hp
      · have hih := ih found k hpw2 (fun x hx => h x (by simp [hx])) ni' hm p hp hk hr
        refine ⟨hih.1, hih.2.1, ?_⟩
        intro mi hmi hmisub hmik
        rcases List.mem_cons.mp hmi with hmi | hmi
        · rw [hmi] at hmisub
          rw [hmisub] at hs
          exact absurd hs (by simp)
        · exact hih.2.2 mi hmi hmisub hmik

theorem annotateList_unsub_mem (getArgs : Option String → List String) :
    ∀ (l : List NamespaceInfo) (found : List String) (ni : NamespaceInfo),
      ni ∈ l → isSubscribed ni = false →
      ni ∈ (annotateList getArgs found l).1 := by
  intro l
  induction l with
  | nil => intro found ni h; simp at h
  | cons nj rest ih =>
    intro found ni hmem hsub
    rcases List.mem_cons.mp hmem with hmem | hmem
    · subst hmem
      rw [annotateList, hsub]
      simp
    · cases hs : isSubscribed nj with
      | true =>
        rw [annotateList, hs]
        simp only [if_true, ite_true]
        exact List.mem_cons_of_mem _
          (ih ((markEntries getArgs nj nj.shortcuts found).2) ni hmem hsub)
      | false =>
        rw [annotateList, hs]
        simp only [Bool.false_eq_true, if_neg, ite_false]
        exact List.mem_cons_of_mem _ (ih found ni hmem hsub)

/-- C1: after reachability annotation at most one entry per distinct key
across all namespaces is marked reachable; a reachable entry belongs to
a subscribed namespace whose priority is maximal among the subscribed
namespaces defining that key; and namespaces without a positive priority
are never visited — they appear in the output unchanged.  The hypothesis
reflects the data model: reachable is computed, never authored, so no
fetched entry of an unvisited namespace already carries reachable =
true. -/
theorem reachable_unique_and_highest_priority
    (getArgs : Option String → List String)
    (infos : List NamespaceInfo) (k : String)
    (h : ∀ ni ∈ infos, isSubscribed ni = false →
        ∀ p ∈ ni.shortcuts, p.2.reachable ≠ some true) :
    reachableCount (addReachable getArgs infos) k ≤ 1
    ∧ (∀ ni' ∈ addReachable getArgs infos, ∀ p ∈ ni'.shortcuts, p.1 = k →
        p.2.reachable = some true →
        isSubscribed ni' = true
        ∧ ∀ mi ∈ infos, isSubscribed mi = true → k ∈ mi.shortcuts.map Prod.fst →
            priVal mi ≤ priVal ni')
    ∧ (∀ ni ∈ infos, isSubscribed ni = false → ni ∈ addReachable getArgs infos) := by
  have hperm := List.perm_insertionSort prioGe infos
  have hsort : List.Pairwise prioGe (List.insertionSort prioGe infos) :=
    List.sorted_insertionSort prioGe infos
  have hsh : ∀ ni ∈ List.insertionSort prioGe infos, isSubscribed ni = false →
      ∀ p ∈ ni.shortcuts, p.2.reachable ≠ some true :=
    fun ni hni => h ni (hperm.mem_iff.mp hni)
  refine ⟨(annotateList_count getArgs _ [] k hsh).1, ?_, ?_⟩
  · intro ni' hm p hp hk hr
    obtain ⟨hsub, _, hmax⟩ := annotateList_reachable_max getArgs _ [] k hsort hsh
      ni' hm p hp hk hr
    exact ⟨hsub, fun mi hmi hms hmk => hmax mi (hperm.mem_iff.mpr hmi) hms hmk⟩
  · intro ni hni hsub
    exact annotateList_unsub_mem getArgs _ [] ni (hperm.mem_iff.mpr hni) hsub

/-- C1 witness. -/
theorem reachable_unique_and_highest_priority_witness :
    reachableCount (addReachable noArgs demoInfos) "x 1" ≤ 1
    ∧ (∀ ni' ∈ addReachable noArgs demoInfos, ∀ p ∈ ni'.shortcuts, p.1 = "x 1" →
        p.2.reachable = some true →
        isSubscribed ni' = true
        ∧ ∀ mi ∈ demoInfos, isSubscribed mi = true →
            "x 1" ∈ mi.shortcuts.map Prod.fst → priVal mi ≤ priVal ni')
    ∧ (∀ ni ∈ demoInfos, isSubscribed ni = false →
        ni ∈ addReachable noArgs demoInfos) :=
  reachable_unique_and_highest_priority noArgs demoInfos "x 1" (by decide)

theorem pick_idem {α : Type} (a b : Option α) : pick a (pick a b) = pick a b := by
  cases a <;> rfl

theorem assign_absorb (s t : Shortcut) : assign (assign s t) t = assign s t := by
  simp [assign, pick_idem]

theorem applySame_of_inc_none (sc : List (String × Shortcut)) (s : Shortcut)
    (h : s.inc = none) : applySameNs sc s = s := by
  simp [applySameNs, h]

theorem assoc_ext {α : Type} : ∀ {l1 l2 : List (String × α)},
    l1.map Prod.fst = l2.map Prod.fst → (l1.map Prod.fst).Nodup →
    (∀ k, assocFind l1 k = assocFind l2 k) → l1 = l2 := by
  intro l1
  induction l1 with
  | nil =>
    intro l2 hk _ _
    exact (List.map_eq_nil_iff.mp hk.symm).symm
  | cons p t ih =>
    intro l2 hk hnd hfind
    obtain ⟨k0, v⟩ := p
    cases l2 with
    | nil => simp at hk
    | cons q t2 =>
      obtain ⟨k2, v2⟩ := q
      simp only [List.map_cons, List.cons.injEq] at hk
      obtain ⟨hk02, htl⟩ := hk
      subst hk02
      have hv : v = v2 := by
        have hf := hfind k0
        rw [assocFind_cons, assocFind_cons] at hf
        simp only [beq_self_eq_true, if_true, ite_true] at hf
        exact Option.some.inj hf
      subst hv
      have hndt : (t.map Prod.fst).Nodup := (List.nodup_cons.mp hnd).2
      have hk0t : k0 ∉ t.map Prod.fst := (List.nodup_cons.mp hnd).1
      have hk0t2 : k0 ∉ t2.map Prod.fst := htl ▸ hk0t
      congr 1
      refine ih htl hndt ?_
      intro k
      by_cases hkk : k = k0
      · subst hkk
        rw [assocFind_eq_none_of_not_mem hk0t, assocFind_eq_none_of_not_mem hk0t2]
      · have hf := hfind k
        rw [assocFind_cons, assocFind_cons] at hf
        have hb : (k0 == k) = false := by
          simp only [beq_eq_false_iff_ne]
          exact fun hx => hkk hx.symm
        rw [hb] at hf
        simpa using hf

theorem goSame (fo : FetchOracle) (po : ParseOracle) (selfGithub : Option String)
    (sc : List (String × Shortcut))
    (hsame : ∀ k s incl, assocFind sc k = some s → s.inc = some incl →
        jsTruthyS incl.nsp = false)
    (hfree : ∀ k s incl t, assocFind sc k = some s → s.inc = some incl →
        assocFind sc (incl.key.getD "") = some t → t.inc = none) :
    ∀ (ks : List String) (st : List (String × Shortcut) × Infos × Bool),
      ks.Nodup →
      (∀ k ∈ ks, k ∈ sc.map Prod.fst) →
      st.1.map Prod.fst = sc.map Prod.fst →
      (∀ k, assocFind st.1 k
        = if k ∈ ks then assocFind sc k
          else (assocFind sc k).map (applySameNs sc)) →
      ∃ st', addIncludesGo fo po selfGithub ks st = .ok st'
        ∧ st'.2.1 = st.2.1
        ∧ st'.1.map Prod.fst = sc.map Prod.fst
        ∧ ∀ k, assocFind st'.1 k = (assocFind sc k).map (applySameNs sc) := by
  intro ks
  induction ks with
  | nil =>
    intro st _ _ hkeys hinv
    refine ⟨st, rfl, rfl, hkeys, ?_⟩
    intro k
    have := hinv k
    simpa using this
  | cons k0 rest ih =>
    intro st hnd hks hkeys hinv
    have hk0rest : k0 ∉ rest := (List.nodup_cons.mp hnd).1
    have hndr : rest.Nodup := (List.nodup_cons.mp hnd).2
    have hk0sc : k0 ∈ sc.map Prod.fst := hks k0 (by simp)
    have hcur : assocFind st.1 k0 = assocFind sc k0 := by
      have := hinv k0
      simpa using this
    obtain ⟨p0, hp0, hfst0⟩ := List.mem_map.mp hk0sc
    obtain ⟨s, hsck0⟩ : ∃ s, assocFind sc k0 = some s := by
      have hp : (k0, p0.2) ∈ sc := by
        rw [← hfst0]
        exact hp0
      exact assocFind_isSome_of_mem hp
    have hfind : assocFind st.1 k0 = some s := by rw [hcur, hsck0]
    have hinvStep : ∀ (st2 : List (String × Shortcut) × Infos × Bool),
        st2.1 = assocUpdate st.1 k0 (applySameNs sc s) →
        ∀ k, assocFind st2.1 k
          = if k ∈ rest then assocFind sc k
            else (assocFind sc k).map (applySameNs sc) := by
      intro st2 hst2 k
      by_cases hkr : k ∈ rest
      · rw [if_pos hkr, hst2]
        have hne : k ≠ k0 := fun he => hk0rest (he ▸ hkr)
        rw [assocFind_assocUpdate_ne _ hne]
        have := hinv k
        rw [if_pos (by simp [hkr])] at this
        exact this
      · rw [if_neg hkr, hst2]
        by_cases hkk0 : k = k0
        · subst hkk0
          rw [assocFind_assocUpdate_self _ (by rw [hkeys]; exact hk0sc)]
          simp [hsck0]
        · rw [assocFind_assocUpdate_ne _ hkk0]
          have := hinv k
          rw [if_neg (by simp [hkr, hkk0])] at this
          exact this
    cases hsinc : s.inc with
    | none =>
      have hstep : addIncludesStep fo po selfGithub st k0 = .ok st := by
        unfold addIncludesStep
        simp [hfind, hsinc]
      have hinv' : ∀ k, assocFind st.1 k
          = if k ∈ rest then assocFind sc k
            else (assocFind sc k).map (applySameNs sc) := by
        intro k
        by_cases hkr : k ∈ rest
        · rw [if_pos hkr]
          have := hinv k
          rw [if_pos (by simp [hkr])] at this
          exact this
        · rw [if_neg hkr]
          by_cases hkk0 : k = k0
          · subst hkk0
            rw [hcur, hsck0]
            simp [applySame_of_inc_none sc s hsinc]
          · have := hinv k
            rw [if_neg (by simp [hkr, hkk0])] at this
            exact this
      obtain ⟨st', hgo, h1, h2, h3⟩ := ih st hndr
        (fun k hk => hks k (by simp [hk])) hkeys hinv'
      refine ⟨st', ?_, h1, h2, h3⟩
      unfold addIncludesGo
      rw [hstep]
      exact hgo
    | some incl =>
      have hnsp : jsTruthyS incl.nsp = false := hsame k0 s incl hsck0 hsinc
      cases hkt : jsTruthyS incl.key with
      | false =>
        have hstep : addIncludesStep fo po selfGithub st k0
            = .ok (st.1, st.2.1, true) := by
          unfold addIncludesStep
          simp [hfind, hsinc, hkt]
        have hinv' : ∀ k, assocFind (st.1, st.2.1, true).1 k
            = if k ∈ rest then assocFind sc k
              else (assocFind sc k).map (applySameNs sc) := by
          intro k
          by_cases hkr : k ∈ rest
          · rw [if_pos hkr]
            have := hinv k
            rw [if_pos (by simp [hkr])] at this
            exact this
          · rw [if_neg hkr]
            by_cases hkk0 : k = k0
            · subst hkk0
              have hap : applySameNs sc s = s := by
                simp [applySameNs, hsinc, hkt]
              rw [show ((st.1, st.2.1, true) :
                  List (String × Shortcut) × Infos × Bool).1 = st.1 from rfl]
              rw [hcur, hsck0]
              simp [hap]
            · have := hinv k
              rw [if_neg (by simp [hkr, hkk0])] at this
              exact this
        obtain ⟨st', hgo, h1, h2, h3⟩ := ih (st.1, st.2.1, true) hndr
          (fun k hk => hks k (by simp [hk])) hkeys hinv'
        refine ⟨st', ?_, h1, h2, h3⟩
        unfold addIncludesGo
        rw [hstep]
        exact hgo
      | true =>
        have htv : assocFind st.1 (incl.key.getD "") = assocFind sc (incl.key.getD "") := by
          by_cases hmem : incl.key.getD "" ∈ k0 :: rest
          · have := hinv (incl.key.getD "")
            rw [if_pos hmem] at this
            exact this
          · have := hinv (incl.key.getD "")
            rw [if_neg hmem] at this
            rw [this]
            cases hsct : assocFind sc (incl.key.getD "") with
            | none => rfl
            | some t =>
              have htinc : t.inc = none := hfree k0 s incl t hsck0 hsinc hsct
              simp [applySame_of_inc_none sc t htinc]
        have hstep : addIncludesStep fo po selfGithub st k0
            = .ok (assocUpdate st.1 k0 (applySameNs sc s), st.2.1, st.2.2) := by
          unfold addIncludesStep
          simp only [hfind, hsinc, hkt, hnsp, if_true, ite_true, Bool.false_eq_true,
            if_neg, ite_false]
          rw [htv]
          have hap : applySameNs sc s
              = assignOpt s (assocFind sc (incl.key.getD "")) := by
            simp [applySameNs, hsinc, hkt, hnsp]
          rw [hap]
        obtain ⟨st', hgo, h1, h2, h3⟩ := ih
          (assocUpdate st.1 k0 (applySameNs sc s), st.2.1, st.2.2) hndr
          (fun k hk => hks k (by simp [hk]))
          (by rw [show (assocUpdate st.1 k0 (applySameNs sc s), st.2.1, st.2.2).1
              = assocUpdate st.1 k0 (applySameNs sc s) from rfl,
            assocUpdate_map_fst, hkeys])
          (hinvStep _ rfl)
        refine ⟨st', ?_, h1, h2, h3⟩
        unfold addIncludesGo
        rw [hstep]
        exact hgo

theorem addIncludes_flat_char (fo : FetchOracle) (po : ParseOracle)
    (selfGithub : Option String) (sc : List (String × Shortcut)) (infos : Infos)
    (hnd : (sc.map Prod.fst).Nodup)
    (hsame : ∀ k s incl, assocFind sc k = some s → s.inc = some incl →
        jsTruthyS incl.nsp = false)
    (hfree : ∀ k s incl t, assocFind sc k = some s → s.inc = some incl →
        assocFind sc (incl.key.getD "") = some t → t.inc = none) :
    ∃ out err, addIncludes fo po selfGithub sc infos = .ok (out, infos, err)
      ∧ out.map Prod.fst = sc.map Prod.fst
      ∧ ∀ k, assocFind out k = (assocFind sc k).map (applySameNs sc) := by
  have hinit : ∀ k, assocFind (sc, infos, false).1 k
      = if k ∈ sc.map Prod.fst then assocFind sc k
        else (assocFind sc k).map (applySameNs sc) := by
    intro k
    by_cases hkm : k ∈ sc.map Prod.fst
    · rw [if_pos hkm]
    · rw [if_neg hkm]
      rw [show ((sc, infos, false) :
          List (String × Shortcut) × Infos × Bool).1 = sc from rfl]
      rw [assocFind_eq_none_of_not_mem hkm]
      rfl
  obtain ⟨st', hgo, hinfos, hkeys, hpt⟩ := goSame fo po selfGithub sc hsame hfree
    (sc.map Prod.fst) (sc, infos, false) hnd (fun _ hk => hk) rfl hinit
  obtain ⟨out, infosO, err⟩ := st'
  have hio : infosO = infos := hinfos
  subst hio
  exact ⟨out, err, hgo, hkeys, hpt⟩

theorem applySame_inc (sc : List (String × Shortcut))
    (hsame : ∀ k s incl, assocFind sc k = some s → s.inc = some incl →
        jsTruthyS incl.nsp = false)
    (hfree : ∀ k s incl t, assocFind sc k = some s → s.inc = some incl →
        assocFind sc (incl.key.getD "") = some t → t.inc = none)
    (k : String) (s : Shortcut) (hk : assocFind sc k = some s) :
    (applySameNs sc s).inc = s.inc := by
  cases hi : s.inc with
  | none => rw [applySame_of_inc_none sc s hi, hi]
  | some incl0 =>
    cases hkt : jsTruthyS incl0.key with
    | false => simp [applySameNs, hi, hkt]
    | true =>
      have hnsp := hsame k s incl0 hk hi
      cases hsct : assocFind sc (incl0.key.getD "") with
      | none => simp [applySameNs, hi, hkt, hnsp, hsct, assignOpt]
      | some t =>
        have htinc := hfree k s incl0 t hk hi hsct
        simp [applySameNs, hi, hkt, hnsp, hsct, assignOpt, assign, pick, htinc]

/-- C8 amended: include resolution is idempotent on documents whose
include directives are same-namespace and whose include targets carry no
include directive themselves — a second pass returns the same shortcut
map; the counterexample shows that with chained includes the in-place
merge makes a second pass copy further fields. -/
theorem include_idempotent_flat (fo : FetchOracle) (po : ParseOracle)
    (selfGithub : Option String) (sc : List (String × Shortcut)) (infos : Infos)
    (hnd : (sc.map Prod.fst).Nodup)
    (hsame : ∀ k s incl, assocFind sc k = some s → s.inc = some incl →
        jsTruthyS incl.nsp = false)
    (hfree : ∀ k s incl t, assocFind sc k = some s → s.inc = some incl →
        assocFind sc (incl.key.getD "") = some t → t.inc = none) :
    ∃ sc1 e1 e2, addIncludes fo po selfGithub sc infos = .ok (sc1, infos, e1)
      ∧ addIncludes fo po selfGithub sc1 infos = .ok (sc1, infos, e2) := by
  obtain ⟨out, e1, hrun, hkeys, hpt⟩ :=
    addIncludes_flat_char fo po selfGithub sc infos hnd hsame hfree
  have hlook : ∀ k s', assocFind out k = some s' →
      ∃ s0, assocFind sc k = some s0 ∧ s' = applySameNs sc s0 := by
    intro k s' h
    rw [hpt k] at h
    obtain ⟨s0, hs0, he⟩ := Option.map_eq_some'.mp h
    exact ⟨s0, hs0, he.symm⟩
  have hnd1 : (out.map Prod.fst).Nodup := by
    rw [hkeys]
    exact hnd
  have hsame1 : ∀ k s incl, assocFind out k = some s → s.inc = some incl →
      jsTruthyS incl.nsp = false := by
    intro k s' incl hk hincl
    obtain ⟨s0, hs0, rfl⟩ := hlook k s' hk
    rw [applySame_inc sc hsame hfree k s0 hs0] at hincl
    exact hsame k s0 incl hs0 hincl
  have hfree1 : ∀ k s incl t, assocFind out k = some s → s.inc = some incl →
      assocFind out (incl.key.getD "") = some t → t.inc = none := by
    intro k s' incl t' hk hincl ht
    obtain ⟨s0, hs0, rfl⟩ := hlook k s' hk
    rw [applySame_inc sc hsame hfree k s0 hs0] at hincl
    obtain ⟨t0, ht0, rfl⟩ := hlook _ t' ht
    have htinc := hfree k s0 incl t0 hs0 hincl ht0
    rw [applySame_of_inc_none sc t0 htinc]
    exact htinc
  obtain ⟨out2, e2, hrun2, hkeys2, hpt2⟩ :=
    addIncludes_flat_char fo po selfGithub out infos hnd1 hsame1 hfree1
  have hfix : ∀ (s0 : Shortcut) (k : String), assocFind sc k = some s0 →
      applySameNs out (applySameNs sc s0) = applySameNs sc s0 := by
    intro s0 k hs0
    cases hi : s0.inc with
    | none =>
      rw [applySame_of_inc_none sc s0 hi]
      exact applySame_of_inc_none out s0 hi
    | some incl =>
      have hincA : (applySameNs sc s0).inc = some incl := by
        rw [applySame_inc sc hsame hfree k s0 hs0, hi]
      cases hkt : jsTruthyS incl.key with
      | false =>
        have hA : applySameNs sc s0 = s0 := by
          simp [applySameNs, hi, hkt]
        rw [hA]
        simp [applySameNs, hi, hkt]
      | true =>
        have hnsp := hsame k s0 incl hs0 hi
        cases hsct : assocFind sc (incl.key.getD "") with
        | none =>
          have hoik : assocFind out (incl.key.getD "") = none := by
            rw [hpt, hsct]
            rfl
          have hA : applySameNs sc s0 = s0 := by
            simp [applySameNs, hi, hkt, hnsp, hsct, assignOpt]
          rw [hA]
          simp [applySameNs, hi, hkt, hnsp, hoik, assignOpt]
        | some t0 =>
          have htinc := hfree k s0 incl t0 hs0 hi hsct
          have htfix : applySameNs sc t0 = t0 := applySame_of_inc_none sc t0 htinc
          have hoik : assocFind out (incl.key.getD "") = some t0 := by
            rw [hpt, hsct]
            simp [htfix]
          have hA : applySameNs sc s0 = assign s0 t0 := by
            simp [applySameNs, hi, hkt, hnsp, hsct, assignOpt]
          have hinc2 : (assign s0 t0).inc = some incl := by
            simp [assign, pick, htinc, hi]
          rw [hA]
          simp [applySameNs, hinc2, hkt, hnsp, hoik, assignOpt, assign_absorb]
  have hpt2' : ∀ k, assocFind out2 k = assocFind out k := by
    intro k
    rw [hpt2 k, hpt k]
    cases hsck : assocFind sc k with
    | none => rfl
    | some s0 => simp [hfix s0 k hsck]
  have hout2 : out2 = out :=
    assoc_ext hkeys2 (by rw [hkeys2]; exact hnd1) hpt2'
  refine ⟨out, e1, e2, hrun, ?_⟩
  rw [hout2] at hrun2
  exact hrun2

/-- C8 witness: a flat document — one include, include-free target. -/
theorem include_idempotent_flat_witness :
    ∃ sc1 e1 e2,
      addIncludes trivFo trivPo none
          [("a 0", { title := some "A", inc := some { key := some "b 0" } }),
           ("b 0", { url := some "U" })] []
        = .ok (sc1, [], e1)
      ∧ addIncludes trivFo trivPo none sc1 [] = .ok (sc1, [], e2) := by
  refine include_idempotent_flat trivFo trivPo none
    [("a 0", { title := some "A", inc := some { key := some "b 0" } }),
     ("b 0", { url := some "U" })] [] (by decide) ?_ ?_
  · intro k s incl hk hincl
    have hmem := mem_of_assocFind_eq_some hk
    simp only [List.mem_cons, List.not_mem_nil, or_false] at hmem
    rcases hmem with hmem | hmem
    · have hs : s = { title := some "A", inc := some { key := some "b 0" } } :=
        congrArg Prod.snd hmem
      rw [hs] at hincl
      injection hincl with hincl
      rw [← hincl]
      rfl
    · have hs : s = { url := some "U" } := congrArg Prod.snd hmem
      rw [hs] at hincl
      exact absurd hincl (by simp)
  · intro k s incl t hk hincl ht
    have hmem := mem_of_assocFind_eq_some hk
    simp only [List.mem_cons, List.not_mem_nil, or_false] at hmem
    rcases hmem with hmem | hmem
    · have hs : s = { title := some "A", inc := some { key := some "b 0" } } :=
        congrArg Prod.snd hmem
      rw [hs] at hincl
      injection hincl with hincl
      rw [← hincl] at ht
      have hts : (some { url := some "U" } : Option Shortcut) = some t := ht
      rw [← Option.some.inj hts]
    · have hs : s = { url := some "U" } := congrArg Prod.snd hmem
      rw [hs] at hincl
      exact absurd hincl (by simp)
